import Mathlib

/-!
# Verification of the CredentialLake credential-extraction core

This file shallowly embeds the credential parsing, domain normalization,
deduplication and worker-cancellation logic of the CredentialLake backend
(`backend/utils/domain_utils.py`, `backend/scanner_engine.py`,
`backend/services/dedup_service.py`, `backend/workers/scan_worker.py`)
and proves properties of the embedding.

Strings are modelled as `List Char` (`Chars`).  Python regular expressions
are embedded as hand-written character-level matchers; each matcher's doc
comment records the regex it embeds and the backtracking analysis that
justifies the deterministic implementation.  Python `datetime.now()`
values are modelled as `Nat` timestamps passed explicitly.
-/

namespace CredLake

abbrev Chars := List Char

/-! ## Character classes and basic string helpers -/

/-- `[a-z]` -/
def isLowerAZ (c : Char) : Bool := 'a' ≤ c && c ≤ 'z'

/-- `[A-Z]` -/
def isUpperAZ (c : Char) : Bool := 'A' ≤ c && c ≤ 'Z'

/-- `[0-9]` -/
def isDigit09 (c : Char) : Bool := '0' ≤ c && c ≤ '9'

/-- `[a-zA-Z]` -/
def isAlphaAZ (c : Char) : Bool := isLowerAZ c || isUpperAZ c

/-- `[a-z0-9]` -/
def isLowerAlnum (c : Char) : Bool := isLowerAZ c || isDigit09 c

/-- `[a-z0-9-]`, the character class of a DNS label in `domain_utils`. -/
def isLabelChar (c : Char) : Bool := isLowerAlnum c || c == '-'

/-- Python's `\s` / `str.strip()` whitespace, restricted to ASCII. -/
def isPySpace (c : Char) : Bool :=
  c == ' ' || c == '\t' || c == '\n' || c == '\r' || c == '\x0b' || c == '\x0c'

/-- Python `str.strip()`. -/
def pyStrip (l : Chars) : Chars :=
  ((l.dropWhile isPySpace).reverse.dropWhile isPySpace).reverse

/-- Python `str.lower()` (ASCII). -/
def pyLower (l : Chars) : Chars := l.map Char.toLower

/-- Python `sub in s`: `pat` occurs as a contiguous substring of `l`. -/
def containsSub (pat : Chars) : Chars → Bool
  | [] => pat.isEmpty
  | l@(_ :: rest) => pat.isPrefixOf l || containsSub pat rest

/-- Split a character list on a separator character, like Python
`str.split(sep)`: always returns at least one (possibly empty) part. -/
def splitOnC (sep : Char) : Chars → List Chars
  | [] => [[]]
  | c :: rest =>
    let r := splitOnC sep rest
    if c = sep then [] :: r
    else
      match r with
      | [] => [[c]]
      | p :: ps => (c :: p) :: ps

/-! ## Domain grammar (`domain_utils.py`)

`normalize_domain` builds (correctly, via `{{2,24}}` in the f-string):

    label     = (?:[a-z0-9](?:[a-z0-9-]{0,61}[a-z0-9])?)
    domain_re = ^(?:label\.)+[a-z]{2,24}$

Since neither a label nor the final `[a-z]{2,24}` token may contain `'.'`,
a string matches `domain_re` iff splitting it on `'.'` yields at least two
parts, all parts except the last are valid labels, and the last part is
2–24 lowercase letters. -/

/-- The `label` sub-regex: 1–63 chars of `[a-z0-9-]`, first and last
alphanumeric. -/
def isValidLabel (l : Chars) : Bool :=
  !l.isEmpty && l.length ≤ 63 && l.all isLabelChar &&
    isLowerAlnum (l.headD '-') && isLowerAlnum (l.getLastD '-')

/-- Embeds `domain_re` of `normalize_domain` (the correctly escaped
`^(?:label\.)+[a-z]{2,24}$`). -/
def domain_re_match (s : Chars) : Bool :=
  let parts := splitOnC '.' s
  decide (2 ≤ parts.length) && parts.dropLast.all isValidLabel &&
    (let last := parts.getLastD []
     decide (2 ≤ last.length) && decide (last.length ≤ 24) && last.all isLowerAZ)

/-- Embeds the regex that `best_domain_from` actually builds.  The source
writes `rf"^(?:{label}\.)+[a-z]{2,24}$"` *without* doubling the braces, so
Python substitutes the tuple `(2, 24)` into the f-string and the compiled
pattern is `^(?:label\.)+[a-z](2, 24)$` — i.e. one lowercase letter followed
by the literal text `2, 24` (the parentheses form a regex group around the
literal).  Hence a string matches iff its final dot-separated part is a
lowercase letter followed by the five characters `2`, `,`, `' '`, `2`, `4`,
with valid labels before it. -/
def buggy_domain_re_match (s : Chars) : Bool :=
  let parts := splitOnC '.' s
  decide (2 ≤ parts.length) && parts.dropLast.all isValidLabel &&
    (let last := parts.getLastD []
     isLowerAZ (last.headD '-') && last.drop 1 == "2, 24".toList)

/-! ## The salvage scan `re.findall(r"(?:[a-z0-9-]+\.)+[a-z]{2,24}", text)`

A match at a position consists of a maximal sequence of "chunk." groups
(each chunk a maximal nonempty run of `[a-z0-9-]` followed by a literal
dot — deterministic, since `'.'` is not a chunk character) followed by a
greedy run of 2–24 lowercase letters.  The `+` repetition is greedy, so
the engine tries the largest number of chunks first and drops trailing
chunks until at least two letters follow.  `re.findall` scans left to
right, moving one character forward on failure and past the whole match
on success. -/

/-- Remainders of `s` after consuming 1, 2, … maximal "chunk." groups.
`fuel` bounds recursion depth (call with `fuel = s.length`). -/
def chunkStops : Nat → Chars → List Chars
  | 0, _ => []
  | fuel + 1, s =>
    let run := s.takeWhile isLabelChar
    if run.isEmpty then []
    else
      match s.drop run.length with
      | '.' :: rest2 => rest2 :: chunkStops fuel rest2
      | _ => []

/-- Length of the salvage-regex match starting exactly at the head of `s`,
if any (greedy semantics as analysed above). -/
def salvageMatchLen (s : Chars) : Option Nat :=
  (chunkStops s.length s).reverse.findSome? fun rest =>
    let letters := rest.takeWhile isLowerAZ
    if 2 ≤ letters.length then some (s.length - rest.length + min letters.length 24)
    else none

/-- `re.findall` scan; `fuel` bounds the number of scan steps (call with
`fuel = s.length`; each step consumes at least one character). -/
def salvageFindallAux : Nat → Chars → List Chars
  | 0, _ => []
  | _ + 1, [] => []
  | fuel + 1, s@(_ :: rest) =>
    match salvageMatchLen s with
    | some len => s.take len :: salvageFindallAux fuel (s.drop len)
    | none => salvageFindallAux fuel rest

/-- All matches of the salvage regex in `text`, left to right. -/
def salvageFindall (text : Chars) : List Chars := salvageFindallAux text.length text

/-- Python `max(matches, key=len)`: the first element of maximal length. -/
def maxByLen (l : List Chars) : Chars :=
  l.foldl (fun best x => if best.length < x.length then x else best) (l.headD [])

/-- The inner `find_candidate` helper of `normalize_domain`: the longest
salvage match, with a leading `www.` stripped; `""` when there is none. -/
def find_candidate (text : Chars) : Chars :=
  let ms := salvageFindall text
  if ms.isEmpty then []
  else
    let cand := maxByLen ms
    if "www.".toList.isPrefixOf cand then cand.drop 4 else cand

/-! ## A model of `urllib.parse.urlparse` as used here

`normalize_domain` and `DedupService.extract_domain` use only the value
`parsed.netloc or parsed.path or s`.  We model CPython's `urlsplit` for
that use: an optional `scheme:` prefix (first `':'`, with a valid scheme
before it) is removed; if the remainder starts with `//`, the netloc runs
to the first of `/?#`; the path is the rest up to the first of `?#`. -/

/-- A valid URL scheme: a letter followed by letters, digits, `+`, `-`,
`.`. -/
def validScheme (l : Chars) : Bool :=
  match l with
  | [] => false
  | c :: rest =>
    isAlphaAZ c && rest.all fun d => isAlphaAZ d || isDigit09 d || d == '+' || d == '-' || d == '.'

/-- `netloc or path or orig` for a URL `u` with any scheme already
stripped. -/
def netlocOrPathOr (u orig : Chars) : Chars :=
  if "//".toList.isPrefixOf u then
    let netloc := (u.drop 2).takeWhile fun c => c ≠ '/' && c ≠ '?' && c ≠ '#'
    let after := (u.drop 2).drop netloc.length
    let path := after.takeWhile fun c => c ≠ '?' && c ≠ '#'
    if !netloc.isEmpty then netloc else if !path.isEmpty then path else orig
  else
    let path := u.takeWhile fun c => c ≠ '?' && c ≠ '#'
    if !path.isEmpty then path else orig

/-- CPython's `urlsplit` input cleanup: strip leading/trailing C0
controls and spaces, then remove every tab, CR and LF. -/
def urlWhatwgClean (s : Chars) : Chars :=
  let t := ((s.dropWhile (· ≤ ' ')).reverse.dropWhile (· ≤ ' ')).reverse
  t.filter fun c => c ≠ '\t' && c ≠ '\r' && c ≠ '\n'

/-- Models `urlparse(s)` followed by `parsed.netloc or parsed.path or s`
(the `or s` fallback uses the caller's original string). -/
def urlNetlocOrPathOrSelf (s : Chars) : Chars :=
  let u := urlWhatwgClean s
  let pre := u.takeWhile (· ≠ ':')
  if pre.length < u.length && validScheme pre then
    netlocOrPathOr (u.drop (pre.length + 1)) s
  else netlocOrPathOr u s

/-! ## `normalize_domain`, `extract_root_domain`, `best_domain_from` -/

/-- The validation tail of `normalize_domain`: accept `s` when it matches
`domain_re`, otherwise salvage a candidate from `s` (and, failing that,
from the cleaned original `value`) and accept it only when it matches.  -/
def normalize_domain_validate (value s : Chars) : Chars :=
  if domain_re_match s then s
  else
    let cand0 := find_candidate s
    let cand := if cand0.isEmpty then find_candidate (pyLower (pyStrip value)) else cand0
    if !cand.isEmpty && domain_re_match cand then cand else "other".toList

/-- Embeds `domain_utils.normalize_domain`. -/
def normalize_domain (value : Chars) : Chars :=
  let s0 := pyLower (pyStrip value)
  if s0.isEmpty then "other".toList
  else
    let s1 := if containsSub "://".toList s0 then urlNetlocOrPathOrSelf s0 else s0
    let s2 := s1.takeWhile (· ≠ '/')
    let s3 := s2.takeWhile (· ≠ ':')
    if s3 = "http".toList ∨ s3 = "https".toList then "other".toList
    else
      let s4 := if "www.".toList.isPrefixOf s3 then s3.drop 4 else s3
      normalize_domain_validate value s4

def PUBLIC_SUFFIX_MULTI : List Chars :=
  ["co.id", "go.id", "ac.id", "or.id", "web.id", "my.id", "sch.id",
   "co.uk", "gov.uk", "ac.uk", "org.uk",
   "com.au", "net.au", "gov.au",
   "co.jp"].map String.toList

def INVALID_ROOT_DOMAINS : List Chars :=
  ["net.id", "id",
   "com", "net", "org", "edu", "gov", "mil",
   "co", "uk", "au", "jp", "de", "fr", "it", "es"].map String.toList

def ALLOW_EXACT_ROOTS : List Chars := ["desa.id", "biz.id"].map String.toList

/-- Embeds `domain_utils.extract_root_domain`.  The Python source iterates
over the *set* `PUBLIC_SUFFIX_MULTI` and returns inside the loop; since a
domain can satisfy `norm.endswith("." + ps) or norm == ps` for at most one
two-label suffix `ps` (the last two labels of `norm` determine it), the
iteration order is irrelevant and `List.find?` over the source order is a
faithful model. -/
def extract_root_domain (domain : Chars) : Chars :=
  let norm := normalize_domain domain
  if norm = "other".toList then "other".toList
  else if ALLOW_EXACT_ROOTS.contains norm then norm
  else
    let parts := splitOnC '.' norm
    match PUBLIC_SUFFIX_MULTI.find? (fun ps => ('.' :: ps).isSuffixOf norm || norm == ps) with
    | some ps =>
      let n := (splitOnC '.' ps).length
      if parts.length ≤ n then
        if ALLOW_EXACT_ROOTS.contains norm then norm else "other".toList
      else
        let root := List.intercalate ['.'] (parts.drop (parts.length - (n + 1)))
        if INVALID_ROOT_DOMAINS.contains root && !ALLOW_EXACT_ROOTS.contains root then
          "other".toList
        else root
    | none =>
      if 2 ≤ parts.length then
        let root := List.intercalate ['.'] (parts.drop (parts.length - 2))
        if INVALID_ROOT_DOMAINS.contains root && !ALLOW_EXACT_ROOTS.contains root then
          "other".toList
        else root
      else "other".toList

/-- The `find_candidate` helper local to `best_domain_from`: unlike the one
in `normalize_domain` it lowercases its argument itself. -/
def find_candidate_bd (text : Chars) : Chars :=
  if text.isEmpty then []
  else find_candidate (pyLower text)

/-- Embeds `domain_utils.best_domain_from`.  Note that every candidate is
checked against `buggy_domain_re_match` — the regex the source actually
compiles (see there). -/
def best_domain_from (domain url username : Chars) : Chars :=
  let nd := normalize_domain domain
  if nd ≠ "other".toList && buggy_domain_re_match nd then nd
  else
    let fromUrl : Option Chars :=
      if url.isEmpty then none
      else
        let nu := normalize_domain url
        if nu ≠ "other".toList && buggy_domain_re_match nu then some nu
        else
          let cand := find_candidate_bd url
          if !cand.isEmpty && buggy_domain_re_match cand then some cand else none
    match fromUrl with
    | some r => r
    | none =>
      let fromEmail : Option Chars :=
        if !username.isEmpty && username.contains '@' then
          let email_dom := ((username.dropWhile (· ≠ '@')).drop 1)
          let ne := normalize_domain email_dom
          if ne ≠ "other".toList && buggy_domain_re_match ne then some ne
          else
            let cand := find_candidate_bd email_dom
            if !cand.isEmpty && buggy_domain_re_match cand then some cand else none
        else none
      match fromEmail with
      | some r => r
      | none =>
        let combined := domain ++ [' '] ++ url ++ [' '] ++ username
        let cand := find_candidate_bd combined
        if !cand.isEmpty && buggy_domain_re_match cand then cand else "other".toList

/-! ## Dedup service (`services/dedup_service.py`)

The relational store is modelled as in-memory lists; the unique index on
`(url, username, password)` is realised by `upsert_credential` looking up
the first matching row before inserting, exactly as the source does with
`query.filter_by(...).first()`.  `datetime.now()` is a `Nat` timestamp
passed explicitly. -/

structure Credential where
  id : Nat
  url : Chars
  username : Chars
  password : Chars
  domain : Chars
  is_admin : Bool
  first_seen : Nat
  last_seen : Nat
  seen_count : Nat
deriving DecidableEq, Repr

structure JobCredential where
  job_id : Chars
  credential_id : Nat
  is_new : Bool
deriving DecidableEq, Repr

structure DB where
  creds : List Credential
  job_creds : List JobCredential
  next_id : Nat
deriving DecidableEq, Repr

def DB.empty : DB := ⟨[], [], 0⟩

/-- Embeds `DedupService.extract_domain`. -/
def dedup_extract_domain (url : Chars) : Chars :=
  if url.isEmpty then "other".toList
  else
    let d0 := urlNetlocOrPathOrSelf url
    let d1 := d0.takeWhile (· ≠ ':')
    let d2 := if "www.".toList.isPrefixOf d1 then d1.drop 4 else d1
    let digitsOnly := d2.filter fun c => c ≠ '.' && c ≠ '-'
    if !d2.isEmpty && d2.contains '.' && !(!digitsOnly.isEmpty && digitsOnly.all isDigit09) then
      pyStrip (pyLower d2)
    else normalize_domain d2

def ADMIN_KEYWORDS : List Chars :=
  ["admin", "administrator", "root", "superuser",
   "sysadmin", "webadmin", "dbadmin", "sudo"].map String.toList

/-- Embeds `DedupService.check_admin_keywords`. -/
def check_admin_keywords (username password : Chars) : Bool :=
  let text := pyLower (username ++ [' '] ++ password)
  ADMIN_KEYWORDS.any fun k => containsSub k text

def tripleMatches (url username password : Chars) (c : Credential) : Bool :=
  c.url == url && c.username == username && c.password == password

/-- Update the first row matching the triple, as the ORM's
`filter_by(...).first()` + attribute mutation does. -/
def bumpFirst (url username password : Chars) (now : Nat) : List Credential → List Credential
  | [] => []
  | c :: rest =>
    if tripleMatches url username password c then
      { c with last_seen := now, seen_count := c.seen_count + 1 } :: rest
    else c :: bumpFirst url username password now rest

/-- The domain computation at the top of `upsert_credential`: extract from
the URL first, fall back to `best_domain_from('', url, username)` when
that yields `'other'` or nothing. -/
def upsert_domain (url username : Chars) : Chars :=
  let domain0 := if !url.isEmpty then dedup_extract_domain url else []
  if domain0 == "other".toList || domain0.isEmpty then best_domain_from [] url username
  else domain0

/-- Embeds `DedupService.upsert_credential`; returns the updated store and
`(credential_id, is_new)`. -/
def upsert_credential (db : DB) (url username password job_id : Chars) (now : Nat) :
    DB × Nat × Bool :=
  let domain := upsert_domain url username
  let is_admin := check_admin_keywords username password
  match db.creds.find? (tripleMatches url username password) with
  | some existing =>
    ({ db with
        creds := bumpFirst url username password now db.creds,
        job_creds := db.job_creds ++ [⟨job_id, existing.id, false⟩] },
      existing.id, false)
  | none =>
    let cid := db.next_id
    let newC : Credential :=
      ⟨cid, url, username, password, domain, is_admin, now, now, 1⟩
    (⟨db.creds ++ [newC], db.job_creds ++ [⟨job_id, cid, true⟩], cid + 1⟩, cid, true)

/-- Iterate `upsert_credential` over a sequence of calls `(job_id, now)`
with a fixed triple; returns the final store and the `is_new` flags in call
order. -/
def upsert_many (db : DB) (url username password : Chars) :
    List (Chars × Nat) → DB × List Bool
  | [] => (db, [])
  | (j, t) :: rest =>
    let r1 := upsert_credential db url username password j t
    let r2 := upsert_many r1.1 url username password rest
    (r2.1, r1.2.2 :: r2.2)

/-- Embeds `DedupService.bulk_upsert_credentials` with the per-row upsert
as the (total) embedded `upsert_credential`; this is the variant used by
the worker pipeline.  Rows with any empty field are skipped without
touching the counters, as in the source. -/
def bulk_upsert_pure (db : DB) (creds : List (Chars × Chars × Chars)) (job_id : Chars)
    (now : Nat) : DB × Nat × Nat :=
  match creds with
  | [] => (db, 0, 0)
  | (url, username, password) :: rest =>
    if !url.isEmpty && !username.isEmpty && !password.isEmpty then
      let r := upsert_credential db url username password job_id now
      let r2 := bulk_upsert_pure r.1 rest job_id now
      if r.2.2 then (r2.1, r2.2.1 + 1, r2.2.2) else (r2.1, r2.2.1, r2.2.2 + 1)
    else bulk_upsert_pure db rest job_id now

/-- Embeds the control flow of `DedupService.bulk_upsert_credentials` with
the per-row upsert abstracted as a fallible action (the database layer can
raise on any individual insert).  The loop body of the source contains no
`try`/`except`, so an error from one row propagates via `Except.bind` and
aborts the remaining batch — exactly as in the Python, where the exception
unwinds out of `bulk_upsert_credentials` to the worker's top-level handler. -/
def bulk_upsert_credentials (upsert : DB → Chars → Chars → Chars → Except Chars (DB × Nat × Bool))
    (db : DB) (creds : List (Chars × Chars × Chars)) : Except Chars (DB × Nat × Nat) :=
  match creds with
  | [] => .ok (db, 0, 0)
  | (url, username, password) :: rest =>
    if !url.isEmpty && !username.isEmpty && !password.isEmpty then
      match upsert db url username password with
      | .error e => .error e
      | .ok (db', _, is_new) =>
        match bulk_upsert_credentials upsert db' rest with
        | .error e => .error e
        | .ok (db'', n, d) =>
          if is_new then .ok (db'', n + 1, d) else .ok (db'', n, d + 1)
    else bulk_upsert_credentials upsert db rest

/-! ## Line parser (`scanner_engine.py`, `CredentialParser`)

Each of the twenty patterns of `parse_credential_line` is embedded as a
function `tryPatternN : Chars → Option ParsedCred`.  The source's regexes
are hand-compiled to deterministic character scans; each doc comment
states the regex and the backtracking analysis.  All patterns are applied
to the pre-stripped line (the function strips the line first and the
digit-prefix strip removes only leading characters), so the line never
ends in whitespace; `$` is therefore modelled as end-of-input (Python's
"`$` also matches before a trailing newline" case cannot arise). -/

structure ParsedCred where
  url : Chars
  username : Chars
  password : Chars
  original : Chars
  pattern_id : Nat
deriving DecidableEq, Repr

/-- `re.sub(r'^\d+;?', '', url_part)`: drop a leading digit run (if any)
together with one following `';'`. -/
def stripLeadingDigitsOptSemi (l : Chars) : Chars :=
  let d := l.takeWhile isDigit09
  if d.isEmpty then l
  else
    match l.drop d.length with
    | ';' :: r => r
    | r => r

/-- The top-of-parse strip: `if re.match(r'^\d+;', line): line =
re.sub(r'^\d+;', '', line)` — digits *and* the semicolon must both be
present. -/
def stripLeadingDigitsSemi (l : Chars) : Chars :=
  let d := l.takeWhile isDigit09
  if d.isEmpty then l
  else
    match l.drop d.length with
    | ';' :: r => r
    | _ => l

/-- Embeds `CredentialParser.normalize_url`. -/
def normalize_url (url_part : Chars) : Option Chars :=
  if "company/".toList.isPrefixOf url_part || containsSub "Company,".toList url_part then none
  else
    let u := pyStrip (stripLeadingDigitsOptSemi url_part)
    if "http://".toList.isPrefixOf u || "https://".toList.isPrefixOf u then some u
    else if u.contains '/' && !("www.".toList.isPrefixOf u) then some ("https://".toList ++ u)
    else if u.contains '.' then some ("https://".toList ++ u)
    else none

/-- Does a maximal `[^\s]+` run carry an `https?://` scheme with at least
one character after it?  (`https?://[^\s]+` anchored at the run start.) -/
def schemeRunOk (run : Chars) : Bool :=
  ("http://".toList.isPrefixOf run && 8 ≤ run.length) ||
  ("https://".toList.isPrefixOf run && 9 ≤ run.length)

/-- Is there an `'@'` at an interior position (neither first nor last)?
This is exactly when `[^X]+@[^X]+` can split a run whose characters all
avoid `X ⊇ {'@'}`-complementary classes — the full run is then the group. -/
def hasInteriorAt (l : Chars) : Bool := ((l.drop 1).dropLast).contains '@'

/-- Models `(.+)$` applied to the whole remainder `g`: succeeds iff `g` is
nonempty and contains no newline (the line is pre-stripped, so the
"before a trailing newline" reading of `$` cannot arise). -/
def dotPlusToEnd (g : Chars) : Option Chars :=
  if !g.isEmpty && g.all (· ≠ '\n') then some g else none

/-- Models `\s*(.+)$` applied to the whole remainder `t`: the greedy `\s*`
tries the longest whitespace prefix first and gives characters back to
`.+` only as needed. -/
def dotPlusAfterSpaces (t : Chars) : Option Chars :=
  let m := (t.takeWhile isPySpace).length
  (List.range (m + 1)).reverse.findSome? fun k => dotPlusToEnd (t.drop k)

/-- Pattern 1: `^(https?://[^\s]+)\s+([^\s:]+@[^\s:]+):(.+)$`.
`[^\s]+` cannot contain whitespace and `\s+` cannot contain
non-whitespace, so group 1 is the maximal non-space run and the gap is the
maximal whitespace run; the email group is the maximal `[^\s:]` run after
the gap (it must be followed by `':'` and contain an interior `'@'`), and
group 3 is the rest of the line. -/
def tryPattern1 (line : Chars) : Option ParsedCred :=
  let run1 := line.takeWhile fun c => !isPySpace c
  if !schemeRunOk run1 then none
  else
    let rest1 := line.drop run1.length
    let sp := rest1.takeWhile isPySpace
    if sp.isEmpty then none
    else
      let r := rest1.drop sp.length
      let run2 := r.takeWhile fun c => !isPySpace c && c ≠ ':'
      match r.drop run2.length with
      | ':' :: pw =>
        if hasInteriorAt run2 then
          (dotPlusToEnd pw).map fun g3 =>
            ⟨pyStrip run1, pyStrip run2, pyStrip g3, line, 1⟩
        else none
      | _ => none

/-- Pattern 2: `^(https?://[^\s]+)\s+([^\s:@]+):(.+)$` with the source's
post-check `not username.startswith('http') and '.' in url`.  Analysis as
for pattern 1, with `'@'` additionally excluded from the username run. -/
def tryPattern2 (line : Chars) : Option ParsedCred :=
  let run1 := line.takeWhile fun c => !isPySpace c
  if !schemeRunOk run1 then none
  else
    let rest1 := line.drop run1.length
    let sp := rest1.takeWhile isPySpace
    if sp.isEmpty then none
    else
      let r := rest1.drop sp.length
      let run2 := r.takeWhile fun c => !isPySpace c && c ≠ ':' && c ≠ '@'
      if run2.isEmpty then none
      else
        match r.drop run2.length with
        | ':' :: pw =>
          if !("http".toList.isPrefixOf run2) && run1.contains '.' then
            (dotPlusToEnd pw).map fun g3 =>
              ⟨pyStrip run1, pyStrip run2, pyStrip g3, line, 2⟩
          else none
        | _ => none

/-- Models the regex tail `\s*:\s*([^:]+?)\s*:\s*(.+)$` applied to `rest`.
Neither `\s*` nor `[^:]+?` may contain `':'`, so the two colons matched
are the first two colons of `rest`; any nonempty text between them can be
split as `\s* [^:]+? \s*` (the lazy group may itself be whitespace), and
after `.strip()` the username does not depend on the split, so the raw
between-text is returned as the username group. -/
def colonUserColonPassTail (rest : Chars) : Option (Chars × Chars) :=
  let r0 := rest.dropWhile isPySpace
  match r0 with
  | ':' :: r1 =>
    let between := r1.takeWhile (· ≠ ':')
    (match r1.drop between.length with
     | ':' :: r2 =>
       if between.isEmpty then none
       else (dotPlusAfterSpaces r2).map fun g3 => (between, g3)
     | _ => none)
  | _ => none

/-- Pattern 3: `^(https?://[^\s]+)\s*:\s*([^:]+?)\s*:\s*(.+)$`.  Group 1
(`[^\s]+`, which may contain colons) is greedy, so the engine tries every
prefix of the maximal non-space run from longest to shortest until the
tail matches. -/
def tryPattern3 (line : Chars) : Option ParsedCred :=
  let run := line.takeWhile fun c => !isPySpace c
  let minLen : Nat :=
    if "https://".toList.isPrefixOf run then 9
    else if "http://".toList.isPrefixOf run then 8 else 0
  if minLen = 0 then none
  else
    (List.range' minLen (run.length + 1 - minLen)).reverse.findSome? fun L =>
      (colonUserColonPassTail (line.drop L)).map fun g =>
        ⟨pyStrip (line.take L), pyStrip g.1, pyStrip g.2, line, 3⟩

/-- Pattern 4: `^([^\s:]+)\s*:\s*([^:]+?)\s*:\s*(.+)$`, result passed
through `normalize_url`.  Group 1 excludes both whitespace and `':'`, so
it is the maximal such run (a shorter choice leaves a group-1 character
where `\s*:` must match). -/
def tryPattern4 (line : Chars) : Option ParsedCred :=
  let run := line.takeWhile fun c => !isPySpace c && c ≠ ':'
  if run.isEmpty then none
  else
    match colonUserColonPassTail (line.drop run.length) with
    | some (user, pass) =>
      (normalize_url (pyStrip run)).map fun nu =>
        ⟨nu, pyStrip user, pyStrip pass, line, 4⟩
    | none => none

/-- Pattern 5: `^([^:\s]+):([^:]+):(.+)$`, result passed through
`normalize_url`.  All three separators are forced: group 1 and group 2
cannot contain `':'`. -/
def tryPattern5 (line : Chars) : Option ParsedCred :=
  let run := line.takeWhile fun c => !isPySpace c && c ≠ ':'
  if run.isEmpty then none
  else
    match line.drop run.length with
    | ':' :: r1 =>
      let between := r1.takeWhile (· ≠ ':')
      if between.isEmpty then none
      else
        match r1.drop between.length with
        | ':' :: r2 =>
          (dotPlusToEnd r2).bind fun g3 =>
            (normalize_url (pyStrip run)).map fun nu =>
              ⟨nu, pyStrip between, pyStrip g3, line, 5⟩
        | _ => none
    | _ => none

/-- Patterns 6/7/8/9: three-field split on `'|'` / `';'` / tab / `','`,
password re-joining everything after the second separator.  The source
guards with `sep in line` (patterns 6, 7, 9 additionally
`line.count(sep) >= 2`) and then `len(parts) >= 3`; the net condition in
every case is `line.count(sep) >= 2`.  The candidate URL is the first
field if it starts with `http`, else `normalize_url` of it. -/
def tryDelimPattern (sep : Char) (pid : Nat) (line : Chars) : Option ParsedCred :=
  if 2 ≤ line.count sep then
    match splitOnC sep line with
    | p0 :: p1 :: p2 :: rest =>
      let url_part := pyStrip p0
      let username := pyStrip p1
      let password := pyStrip (List.intercalate [sep] (p2 :: rest))
      let url? :=
        if "http".toList.isPrefixOf url_part then some url_part else normalize_url url_part
      match url? with
      | some url =>
        if !url.isEmpty && !username.isEmpty && !password.isEmpty then
          some ⟨url, username, password, line, pid⟩
        else none
      | none => none
    | _ => none
  else none

/-- Pattern 10: `^([^@:]+):([^@]+)@([^@\s]+)$`.  Group 1 cannot contain
`':'` (first colon forced); group 2 cannot contain `'@'` (first `'@'`
after the colon forced); group 3 is the anchored remainder, which must be
nonempty and free of `'@'` and whitespace. -/
def tryPattern10 (line : Chars) : Option ParsedCred :=
  let g1 := line.takeWhile fun c => c ≠ '@' && c ≠ ':'
  if g1.isEmpty then none
  else
    match line.drop g1.length with
    | ':' :: r1 =>
      let g2 := r1.takeWhile (· ≠ '@')
      if g2.isEmpty then none
      else
        match r1.drop g2.length with
        | '@' :: g3 =>
          if !g3.isEmpty && g3.all (fun c => c ≠ '@' && !isPySpace c) then
            let username := pyStrip g1
            let password := pyStrip g2
            match normalize_url (pyStrip g3) with
            | some url =>
              if !url.isEmpty && !username.isEmpty && !password.isEmpty then
                some ⟨url, username, password, line, 10⟩
              else none
            | none => none
          else none
        | _ => none
    | _ => none

/-- Pattern 11: `^\[([^\]]+)\]\s*(.+)$`, then the part after the brackets
is split on `':'` into username and password. -/
def tryPattern11 (line : Chars) : Option ParsedCred :=
  match line with
  | '[' :: r =>
    let g1 := r.takeWhile (· ≠ ']')
    if g1.isEmpty then none
    else
      match r.drop g1.length with
      | ']' :: r2 =>
        match dotPlusAfterSpaces r2 with
        | some credRaw =>
          let cred_part := pyStrip credRaw
          let url_part := pyStrip g1
          if cred_part.contains ':' then
            match splitOnC ':' cred_part with
            | u :: c1 :: cs =>
              let username := pyStrip u
              let password := pyStrip (List.intercalate [':'] (c1 :: cs))
              let url? :=
                if "http".toList.isPrefixOf url_part then some url_part
                else normalize_url url_part
              match url? with
              | some url =>
                if !url.isEmpty && !username.isEmpty && !password.isEmpty then
                  some ⟨url, username, password, line, 11⟩
                else none
              | none => none
            | _ => none
          else none
        | none => none
      | _ => none
  | _ => none

/-- Pattern 12: the source splits the whole line on `':'`; if the first
(stripped) part starts with `http` and there are at least two parts after
the URL head (optionally absorbing a purely numeric port token), the rest
is username / password. -/
def tryPattern12 (line : Chars) : Option ParsedCred :=
  let parts := splitOnC ':' line
  if 3 ≤ parts.length then
    match parts with
    | p0 :: p1 :: _ =>
      let first_part := pyStrip p0
      if "http".toList.isPrefixOf first_part then
        let p1s := pyStrip p1
        let isPort := !p1s.isEmpty && p1s.all isDigit09
        let cred_start := if isPort then 2 else 1
        let url := if isPort then first_part ++ [':'] ++ p1 else first_part
        if cred_start < parts.length - 1 then
          let username := pyStrip (parts.getD cred_start [])
          let password := pyStrip (List.intercalate [':'] (parts.drop (cred_start + 1)))
          if !username.isEmpty && !password.isEmpty then
            some ⟨url, username, password, line, 12⟩
          else none
        else none
      else none
    | _ => none
  else none

/-- `[a-zA-Z0-9._%+-]`, the local part class of the pattern-13 email
regex. -/
def emailLocalChar (c : Char) : Bool :=
  isAlphaAZ c || isDigit09 c || c == '.' || c == '_' || c == '%' || c == '+' || c == '-'

/-- `[a-zA-Z0-9.-]`, the domain class of the pattern-13 email regex. -/
def emailDomChar (c : Char) : Bool :=
  isAlphaAZ c || isDigit09 c || c == '.' || c == '-'

/-- Attempt the pattern-13 email regex
`([a-zA-Z0-9._%+-]+@[a-zA-Z0-9.-]+\.[a-zA-Z]{2,}):([^\s]+)` anchored at
the head of `s`.  The local part is the maximal `emailLocalChar` run
(`'@'` is not in the class); after the `'@'`, the domain+tld spans the
maximal `emailDomChar` run `R`, which must be followed by `':'`, end in a
dot followed by at least two letters (only the *last* dot of `R` can be
the `\.` of the regex — any earlier choice leaves a non-letter before the
`':'`), and have a nonempty part before that dot.  The password is the
maximal `[^\s]+` run after the colon. -/
def tryEmailSearchAt (s : Chars) : Option (Chars × Chars) :=
  let e1 := s.takeWhile emailLocalChar
  if e1.isEmpty then none
  else
    match s.drop e1.length with
    | '@' :: r =>
      let R := r.takeWhile emailDomChar
      (match r.drop R.length with
       | ':' :: r2 =>
         let parts := splitOnC '.' R
         let tld := parts.getLastD []
         if 2 ≤ parts.length && 2 ≤ tld.length && tld.all isAlphaAZ &&
             tld.length + 2 ≤ R.length then
           let pw := r2.takeWhile fun c => !isPySpace c
           if pw.isEmpty then none
           else some (e1 ++ '@' :: R, pw)
         else none
       | _ => none)
    | _ => none

/-- `re.search` for the pattern-13 email regex: leftmost match. -/
def searchEmailPass : Chars → Option (Chars × Chars)
  | [] => none
  | s@(_ :: rest) =>
    match tryEmailSearchAt s with
    | some r => some r
    | none => searchEmailPass rest

/-- `re.search(r'(https?://[^\s]+)', line)`: leftmost non-space run that
starts with a scheme. -/
def searchHttpUrl : Chars → Option Chars
  | [] => none
  | s@(_ :: rest) =>
    let run := s.takeWhile fun c => !isPySpace c
    if schemeRunOk run then some run else searchHttpUrl rest

/-- Pattern 13: an email + `:password` found anywhere in the line, paired
with an `https?://` URL found anywhere in the line; no stripping. -/
def tryPattern13 (line : Chars) : Option ParsedCred :=
  match searchEmailPass line with
  | some (email, password) =>
    match searchHttpUrl line with
    | some url => some ⟨url, email, password, line, 13⟩
    | none => none
  | none => none

/-- Pattern 14: `^([^\s]+)\s+([^\s:]+@[^\s:]+):(.+)$` — like pattern 1
but with an arbitrary non-space first token; a token without a scheme gets
`https://` prepended when it contains `'/'` or `'.'`, else goes through
`normalize_url`. -/
def tryPattern14 (line : Chars) : Option ParsedCred :=
  let run1 := line.takeWhile fun c => !isPySpace c
  if run1.isEmpty then none
  else
    let rest1 := line.drop run1.length
    let sp := rest1.takeWhile isPySpace
    if sp.isEmpty then none
    else
      let r := rest1.drop sp.length
      let run2 := r.takeWhile fun c => !isPySpace c && c ≠ ':'
      match r.drop run2.length with
      | ':' :: pw =>
        if hasInteriorAt run2 then
          (dotPlusToEnd pw).bind fun g3 =>
            let url? :=
              if !("http".toList.isPrefixOf run1) then
                if run1.contains '/' || run1.contains '.' then
                  some ("https://".toList ++ run1)
                else normalize_url run1
              else some run1
            url?.map fun url => ⟨url, pyStrip run2, pyStrip g3, line, 14⟩
        else none
      | _ => none

/-- Pattern 15: `^(https?://[^\s]+)\s+([^\s:]+@[^\s:]+)\s+:$` — an
incomplete credential; on match `parse_credential_line` returns `None`
without trying patterns 16–20. -/
def matchesPattern15 (line : Chars) : Bool :=
  let run1 := line.takeWhile fun c => !isPySpace c
  schemeRunOk run1 &&
    (let rest1 := line.drop run1.length
     let sp := rest1.takeWhile isPySpace
     !sp.isEmpty &&
       (let r := rest1.drop sp.length
        let run2 := r.takeWhile fun c => !isPySpace c && c ≠ ':'
        hasInteriorAt run2 &&
          (let r2 := r.drop run2.length
           let sp2 := r2.takeWhile isPySpace
           !sp2.isEmpty && r2.drop sp2.length == [':'])))

/-- Pattern 16: `^(https?://[^\s]+)\s+([^\s:]+@[^\s:]+)\s+([^:\s]+):?$`. -/
def tryPattern16 (line : Chars) : Option ParsedCred :=
  let run1 := line.takeWhile fun c => !isPySpace c
  if !schemeRunOk run1 then none
  else
    let rest1 := line.drop run1.length
    let sp := rest1.takeWhile isPySpace
    if sp.isEmpty then none
    else
      let r := rest1.drop sp.length
      let run2 := r.takeWhile fun c => !isPySpace c && c ≠ ':'
      if !hasInteriorAt run2 then none
      else
        let r2 := r.drop run2.length
        let sp2 := r2.takeWhile isPySpace
        if sp2.isEmpty then none
        else
          let r3 := r2.drop sp2.length
          let g3 := r3.takeWhile fun c => !isPySpace c && c ≠ ':'
          if g3.isEmpty then none
          else
            match r3.drop g3.length with
            | [] => some ⟨pyStrip run1, pyStrip run2, pyStrip g3, line, 16⟩
            | [':'] => some ⟨pyStrip run1, pyStrip run2, pyStrip g3, line, 16⟩
            | _ => none

/-- Pattern 17: `^[^:]*:([^:]+@[^:]+):([^\s]+)\s.*$` — the two colons are
the first two colons of the line; the email between them needs an interior
`'@'`; the password is the non-space run after the second colon and must
be followed by at least one whitespace character.  The URL comes from
`normalize_url` of `email.split('@')[1]` (the text between the first and
second `'@'` of the email, which Python treats as falsy when empty). -/
def tryPattern17 (line : Chars) : Option ParsedCred :=
  let pre := line.takeWhile (· ≠ ':')
  match line.drop pre.length with
  | ':' :: r1 =>
    let between := r1.takeWhile (· ≠ ':')
    if !hasInteriorAt between then none
    else
      match r1.drop between.length with
      | ':' :: r2 =>
        let g2 := r2.takeWhile fun c => !isPySpace c
        if g2.isEmpty then none
        else
          (match r2.drop g2.length with
           | c :: rest =>
             if isPySpace c && rest.all (· ≠ '\n') then
               let domain := (splitOnC '@' between).getD 1 []
               if domain.isEmpty then none
               else
                 (normalize_url domain).map fun url =>
                   ⟨url, pyStrip between, pyStrip g2, line, 17⟩
             else none
           | [] => none)
      | _ => none
  | _ => none

/-- Pattern 18: `^([a-zA-Z0-9.-]+(?:/[^\s]*)?)\s+([^\s:]+@[^\s:]+):(.+)$` —
a domain-ish first token, optionally followed by `/`-path; a token without
a scheme needs a `'.'` to become `https://token`, else the pattern yields
nothing. -/
def tryPattern18 (line : Chars) : Option ParsedCred :=
  let base := line.takeWhile fun c => isAlphaAZ c || isDigit09 c || c == '.' || c == '-'
  if base.isEmpty then none
  else
    let g1 :=
      match line.drop base.length with
      | '/' :: r => base ++ '/' :: r.takeWhile fun c => !isPySpace c
      | _ => base
    let rest1 := line.drop g1.length
    let sp := rest1.takeWhile isPySpace
    if sp.isEmpty then none
    else
      let r := rest1.drop sp.length
      let run2 := r.takeWhile fun c => !isPySpace c && c ≠ ':'
      match r.drop run2.length with
      | ':' :: pw =>
        if hasInteriorAt run2 then
          (dotPlusToEnd pw).bind fun g3 =>
            let url? :=
              if !("http".toList.isPrefixOf g1) then
                if g1.contains '.' then some ("https://".toList ++ g1) else none
              else some g1
            url?.map fun url => ⟨url, pyStrip run2, pyStrip g3, line, 18⟩
        else none
      | _ => none

/-- Pattern 19: `^([^\s]+)\s+([^\s@]+)\s+([^\s:]+@[^\s:]+)$` — token,
password, email; the URL comes from `normalize_url` of the first token. -/
def tryPattern19 (line : Chars) : Option ParsedCred :=
  let t1 := line.takeWhile fun c => !isPySpace c
  if t1.isEmpty then none
  else
    let rest1 := line.drop t1.length
    let sp := rest1.takeWhile isPySpace
    if sp.isEmpty then none
    else
      let r := rest1.drop sp.length
      let t2 := r.takeWhile fun c => !isPySpace c && c ≠ '@'
      if t2.isEmpty then none
      else
        let r2 := r.drop t2.length
        let sp2 := r2.takeWhile isPySpace
        if sp2.isEmpty then none
        else
          let t3 := r2.drop sp2.length
          if !t3.isEmpty && t3.all (fun c => !isPySpace c && c ≠ ':') && hasInteriorAt t3 then
            (normalize_url t1).map fun url =>
              ⟨url, pyStrip t3, pyStrip t2, line, 19⟩
          else none

/-- Pattern 20: `^([^\s]+)\s+([^\s:]+@[^\s:]+)\s+([^\s]+)$` — token,
email, password; rejected when the password token starts with `http`. -/
def tryPattern20 (line : Chars) : Option ParsedCred :=
  let t1 := line.takeWhile fun c => !isPySpace c
  if t1.isEmpty then none
  else
    let rest1 := line.drop t1.length
    let sp := rest1.takeWhile isPySpace
    if sp.isEmpty then none
    else
      let r := rest1.drop sp.length
      let t2 := r.takeWhile fun c => !isPySpace c && c ≠ ':'
      if !hasInteriorAt t2 then none
      else
        let r2 := r.drop t2.length
        let sp2 := r2.takeWhile isPySpace
        if sp2.isEmpty then none
        else
          let t3 := r2.drop sp2.length
          if !t3.isEmpty && t3.all (fun c => !isPySpace c) &&
              !("http".toList.isPrefixOf t3) then
            (normalize_url t1).map fun url =>
              ⟨url, pyStrip t2, pyStrip t3, line, 20⟩
          else none

/-- Embeds `CredentialParser.parse_credential_line`: pre-filters, then the
first-match-wins cascade of patterns 1–20, with pattern 15 ending the
cascade with no result. -/
def parse_credential_line (raw : Chars) : Option ParsedCred :=
  let line1 := pyStrip raw
  if line1.isEmpty || line1.headD ' ' == '#' then none
  else
    let lower := pyLower line1
    if containsSub "company/".toList lower || containsSub "public company".toList lower ||
        containsSub "e-learning providers".toList lower then none
    else
      let line := stripLeadingDigitsSemi line1
      (((((((((((((((tryPattern1 line).orElse fun _ => tryPattern2 line).orElse
        fun _ => tryPattern3 line).orElse fun _ => tryPattern4 line).orElse
        fun _ => tryPattern5 line).orElse fun _ => tryDelimPattern '|' 6 line).orElse
        fun _ => tryDelimPattern ';' 7 line).orElse fun _ => tryDelimPattern '\t' 8 line).orElse
        fun _ => tryDelimPattern ',' 9 line).orElse fun _ => tryPattern10 line).orElse
        fun _ => tryPattern11 line).orElse fun _ => tryPattern12 line).orElse
        fun _ => tryPattern13 line).orElse fun _ => tryPattern14 line).orElse
        fun _ =>
          if matchesPattern15 line then none
          else
            ((((tryPattern16 line).orElse fun _ => tryPattern17 line).orElse
              fun _ => tryPattern18 line).orElse fun _ => tryPattern19 line).orElse
              fun _ => tryPattern20 line)

/-! ## Batch parsing with duplicate suppression
(`CredentialParser.parse_credentials_from_list`)

The worker calls `ParserService.parse_raw_lines`, which invokes
`parse_credentials_from_list` on a fresh parser with no `should_stop`
callback, so the cooperative checkpoint inside the loop is a no-op and is
not modelled here. -/

structure ParsedLineCred where
  line_num : Nat
  url : Chars
  username : Chars
  password : Chars
  original : Chars
  pattern_id : Nat
deriving DecidableEq, Repr

/-- The per-batch dedup key `f"{url}:{username}:{password}"`. -/
def credKey (url username password : Chars) : Chars :=
  url ++ ':' :: username ++ ':' :: password

/-- The loop of `parse_credentials_from_list`: `n` is the 1-based number
of the next line, `seen` the set of keys already encountered. -/
def parse_from_list_aux : List Chars → Nat → List Chars → List ParsedLineCred
  | [], _, _ => []
  | l :: rest, n, seen =>
    match parse_credential_line l with
    | none => parse_from_list_aux rest (n + 1) seen
    | some p =>
      let k := credKey p.url p.username p.password
      if seen.contains k then parse_from_list_aux rest (n + 1) seen
      else
        ⟨n, p.url, p.username, p.password, p.original, p.pattern_id⟩ ::
          parse_from_list_aux rest (n + 1) (k :: seen)

/-- Embeds `parse_credentials_from_list`: the retained records in line
order, together with the returned `unique_count =
len(self.parsed_credentials)`. -/
def parse_credentials_from_list (lines : List Chars) : List ParsedLineCred × Nat :=
  let out := parse_from_list_aux lines 1 []
  (out, out.length)

/-- Embeds `ParserService.parse_raw_lines`:
`(parsed_credentials, parsed_count, unparsed_count)`. -/
def parse_raw_lines (lines : List Chars) : List ParsedLineCred × Nat × Nat :=
  let r := parse_credentials_from_list lines
  (r.1, r.2, lines.length - r.2)

/-! ## CSV export (`CredentialParser.save_to_csv`)

`csv.writer(f, delimiter=';')` uses `QUOTE_MINIMAL`: a field is quoted
iff it contains the delimiter, the quote character or a character of the
line terminator (`\r\n`); quotes are doubled inside quoted fields.  The
reader below is a standard semicolon CSV reader for that dialect. -/

def needsQuote (f : Chars) : Bool :=
  f.any fun c => c = ';' || c = '"' || c = '\r' || c = '\n'

def escapeQuotes : Chars → Chars
  | [] => []
  | '"' :: r => '"' :: '"' :: escapeQuotes r
  | c :: r => c :: escapeQuotes r

def encodeField (f : Chars) : Chars :=
  if needsQuote f then '"' :: (escapeQuotes f ++ ['"']) else f

/-- Join fields with the `';'` delimiter (`List.intercalate [';']`,
written recursively). -/
def joinSemi : List Chars → Chars
  | [] => []
  | [f] => f
  | f :: g :: fs => f ++ ';' :: joinSemi (g :: fs)

/-- One CSV row: `;`-joined encoded fields plus the `\r\n` terminator
(`csv.writer` default `lineterminator='\r\n'`, file opened with
`newline=''`). -/
def encodeRow (fs : List Chars) : Chars :=
  joinSemi (fs.map encodeField) ++ ['\r', '\n']

/-- Decimal digits of a natural number (structural, fuel-bounded). -/
def natDigitsAux : Nat → Nat → Chars
  | 0, _ => []
  | fuel + 1, n =>
    if n < 10 then [Char.ofNat (48 + n)]
    else natDigitsAux fuel (n / 10) ++ [Char.ofNat (48 + n % 10)]

def natToChars (n : Nat) : Chars := natDigitsAux (n + 1) n

def csvHeader : List Chars :=
  ["URL", "Username", "Password", "Line_Number", "Pattern_ID"].map String.toList

def credCsvRow (c : ParsedLineCred) : List Chars :=
  [c.url, c.username, c.password, natToChars c.line_num, natToChars c.pattern_id]

/-- Embeds `save_to_csv`: `none` models the `return False` on an empty
credential list, otherwise the full file content. -/
def save_to_csv (creds : List ParsedLineCred) : Option Chars :=
  if creds.isEmpty then none
  else some (encodeRow csvHeader ++ (creds.map fun c => encodeRow (credCsvRow c)).flatten)

/-- Read the body of a quoted CSV field (after the opening quote): `""`
is an escaped quote, a lone `"` closes the field. -/
def readQuoted : Nat → Chars → Chars × Chars
  | 0, s => ([], s)
  | _ + 1, [] => ([], [])
  | fuel + 1, c :: r =>
    if c ≠ '"' then
      let p := readQuoted fuel r
      (c :: p.1, p.2)
    else if r.headD ' ' = '"' then
      let p := readQuoted fuel r.tail
      ('"' :: p.1, p.2)
    else ([], r)

/-- Read one CSV field; the remainder starts with `';'`, a line break, or
is empty. -/
def readField (s : Chars) : Chars × Chars :=
  if s.headD ' ' = '"' then readQuoted s.tail.length s.tail
  else
    let fd := s.takeWhile fun c => c ≠ ';' && c ≠ '\r' && c ≠ '\n'
    (fd, s.drop fd.length)

/-- Read one CSV row and the remainder after its terminator. -/
def readRow : Nat → Chars → List Chars × Chars
  | 0, s => ([], s)
  | fuel + 1, s =>
    let p := readField s
    if p.2.headD ' ' = ';' then
      let q := readRow fuel p.2.tail
      (p.1 :: q.1, q.2)
    else if p.2.headD ' ' = '\r' && p.2.tail.headD ' ' = '\n' then ([p.1], p.2.tail.tail)
    else if p.2.headD ' ' = '\n' then ([p.1], p.2.tail)
    else ([p.1], p.2)

/-- Read a whole CSV file into rows. -/
def readCsv : Nat → Chars → List (List Chars)
  | 0, _ => []
  | fuel + 1, s =>
    if s.isEmpty then []
    else
      let p := readRow s.length s
      p.1 :: readCsv fuel p.2

/-- A standard semicolon CSV reader over file content. -/
def readCsvFile (content : Chars) : List (List Chars) := readCsv content.length content

/-! ## Worker model (`workers/scan_worker.py`)

The outcome of the collecting phase — the `intelx_service.search_*` call
performed under the `try` that catches `CancelRequested` and
`PauseRequested` — is a parameter: either the raw hit lines, a
cooperative cancel/pause signal raised by the `should_stop` callback, or
an ordinary exception (handled by the worker's top-level
`except Exception`).  Job flags are the values read by the worker during
the run (external mutation between reads is outside this model), and all
timestamps of the run are modelled by one `now`. -/

inductive StopSignal
  | cancel
  | pause
deriving DecidableEq, Repr

structure ScanJob where
  status : Chars
  cancel_requested : Bool
  pause_requested : Bool
  started_at : Option Nat := none
  completed_at : Option Nat := none
  total_raw : Nat := 0
  total_parsed : Nat := 0
  total_new : Nat := 0
  total_duplicates : Nat := 0
  error_message : Option Chars := none
deriving DecidableEq, Repr

/-- Embeds the `_should_stop` closure of `build_should_stop`: `lastCheck`
and `now` are monotonic-clock milliseconds (`0.5 s` = 500); on a throttled
call it returns without touching the store, otherwise it reads the job row
and raises `CancelRequested` / `PauseRequested` as the flags dictate.
Returns the updated `last_check`. -/
def should_stop_check (lastCheck now : Nat) (job : Option ScanJob) :
    Except StopSignal Nat :=
  if now - lastCheck < 500 then .ok lastCheck
  else
    match job with
    | none => .ok now
    | some j =>
      if j.cancel_requested then .error .cancel
      else if j.pause_requested then .error .pause
      else .ok now

inductive CollectResult
  | ok (lines : List Chars)
  | cancel
  | pause
  | fail (msg : Chars)
deriving DecidableEq, Repr

/-- Embeds `process_intelx_scan`: phase transitions, the early and
boundary cancel/pause checks, the `except CancelRequested` /
`except PauseRequested` / `except Exception` arms, and the
parse-then-upsert pipeline on success.  Returns the final job row and
store. -/
def process_intelx_scan (job0 : ScanJob) (db0 : DB) (collect : CollectResult)
    (job_id : Chars) (now : Nat) : ScanJob × DB :=
  let job1 := { job0 with status := "collecting".toList, started_at := some now }
  if job1.cancel_requested then
    ({ job1 with status := "cancelled".toList, completed_at := some now }, db0)
  else if job1.pause_requested then
    ({ job1 with status := "paused".toList }, db0)
  else
    match collect with
    | .cancel => ({ job1 with status := "cancelled".toList, completed_at := some now }, db0)
    | .pause => ({ job1 with status := "paused".toList }, db0)
    | .fail msg =>
      let jf := { job1 with
        status := "failed".toList
        error_message := some msg
        completed_at := some now }
      (jf, db0)
    | .ok raw =>
      let credential_lines := raw.filter fun l => !l.isEmpty
      if job1.cancel_requested then
        ({ job1 with status := "cancelled".toList, completed_at := some now }, db0)
      else if job1.pause_requested then
        ({ job1 with status := "paused".toList }, db0)
      else
        let pr := parse_raw_lines credential_lines
        let bu := bulk_upsert_pure db0
          (pr.1.map fun c => (c.url, c.username, c.password)) job_id now
        let jc := { job1 with
          status := "completed".toList
          completed_at := some now
          total_raw := credential_lines.length
          total_parsed := pr.2.1
          total_new := bu.2.1
          total_duplicates := bu.2.2 }
        (jc, bu.1)

/-! ## Encoding fallback (`read_credentials_from_file`)

The source tries `encodings = ['utf-8', 'ascii']` in order and keeps the
first successful decode.  Decoding is modelled at the byte level: bytes in,
Unicode code points out; both codecs are strict (Python raises
`UnicodeDecodeError` otherwise). -/

/-- A UTF-8 continuation byte `0x80–0xBF`. -/
def isCont (b : Nat) : Bool := 0x80 ≤ b && b ≤ 0xBF

/-- Decode one UTF-8 sequence from the head of the byte list: the code
point and the remaining bytes.  Strict: rejects overlong forms,
surrogates and code points beyond `U+10FFFF`, as CPython's `utf-8` codec
does. -/
def utf8DecodeOne : List Nat → Option (Nat × List Nat)
  | [] => none
  | b :: rest =>
    if b < 0x80 then some (b, rest)
    else if 0xC2 ≤ b && b ≤ 0xDF then
      match rest with
      | c1 :: rest2 =>
        if isCont c1 then some ((b - 0xC0) * 0x40 + (c1 - 0x80), rest2) else none
      | [] => none
    else if 0xE0 ≤ b && b ≤ 0xEF then
      match rest with
      | c1 :: c2 :: rest3 =>
        let firstOk :=
          if b = 0xE0 then 0xA0 ≤ c1 && c1 ≤ 0xBF
          else if b = 0xED then 0x80 ≤ c1 && c1 ≤ 0x9F
          else isCont c1
        if firstOk && isCont c2 then
          some ((b - 0xE0) * 0x1000 + (c1 - 0x80) * 0x40 + (c2 - 0x80), rest3)
        else none
      | _ => none
    else if 0xF0 ≤ b && b ≤ 0xF4 then
      match rest with
      | c1 :: c2 :: c3 :: rest4 =>
        let firstOk :=
          if b = 0xF0 then 0x90 ≤ c1 && c1 ≤ 0xBF
          else if b = 0xF4 then 0x80 ≤ c1 && c1 ≤ 0x8F
          else isCont c1
        if firstOk && isCont c2 && isCont c3 then
          some ((b - 0xF0) * 0x40000 + (c1 - 0x80) * 0x1000 +
            (c2 - 0x80) * 0x40 + (c3 - 0x80), rest4)
        else none
      | _ => none
    else none

/-- Decode a byte list as UTF-8: iterate `utf8DecodeOne`; `fuel` bounds
the number of code points (each sequence consumes at least one byte, so
`fuel = bs.length` suffices). -/
def utf8DecodeAux : Nat → List Nat → Option (List Nat)
  | _, [] => some []
  | 0, _ :: _ => none
  | fuel + 1, bs =>
    match utf8DecodeOne bs with
    | some (cp, rest) => (utf8DecodeAux fuel rest).map (cp :: ·)
    | none => none

/-- Strict UTF-8 decoding of a whole byte list. -/
def utf8Decode (bs : List Nat) : Option (List Nat) := utf8DecodeAux bs.length bs

/-- Strict ASCII decoding: every byte below `0x80`, mapped to itself. -/
def asciiDecode (bs : List Nat) : Option (List Nat) :=
  if bs.all (· < 0x80) then some bs else none

inductive PyEncoding
  | utf8
  | ascii
deriving DecidableEq, Repr

def pyDecode : PyEncoding → List Nat → Option (List Nat)
  | .utf8 => utf8Decode
  | .ascii => asciiDecode

/-- The `for encoding in encodings: try ... break / except
UnicodeDecodeError: continue` loop of `read_credentials_from_file`,
producing `content` (`none` models `content is None`, i.e. the file is
skipped). -/
def readContentWithFallback (encs : List PyEncoding) (bs : List Nat) : Option (List Nat) :=
  match encs with
  | [] => none
  | e :: rest =>
    match pyDecode e bs with
    | some c => some c
    | none => readContentWithFallback rest bs

/-- The encoding list of `read_credentials_from_file`. -/
def sourceEncodings : List PyEncoding := [.utf8, .ascii]

/-! ## Projections and concrete instances used in statements -/

def tripleOfParsed (p : ParsedCred) : Chars × Chars × Chars := (p.url, p.username, p.password)

def tripleOfRec (r : ParsedLineCred) : Chars × Chars × Chars := (r.url, r.username, r.password)

def recKey (r : ParsedLineCred) : Chars := credKey r.url r.username r.password

def parsedKey (p : ParsedCred) : Chars := credKey p.url p.username p.password

/-- A per-row upsert action that fails on one specific URL and otherwise
behaves like the embedded `upsert_credential`; used to exhibit the abort
behaviour of `bulk_upsert_credentials` when the store errors on a row. -/
def failOnBadUpsert (db : DB) (url username password : Chars) :
    Except Chars (DB × Nat × Bool) :=
  if url = "http://bad.example".toList then .error "insert failed".toList
  else .ok (upsert_credential db url username password "job1".toList 5)

/-- The characters a salvage-regex match can contain: `[a-z0-9-]` or a
dot. -/
def isSalvageChar (c : Char) : Bool := isLabelChar c || c == '.'

/-!
# Theorems
-/

/-! ## List and splitting lemmas -/

/-- `splitOnC` never returns an empty list of parts. -/
theorem splitOnC_ne_nil (sep : Char) (l : Chars) : splitOnC sep l ≠ [] := by
  cases l with
  | nil => simp [splitOnC]
  | cons c rest =>
    simp only [splitOnC]
    split
    · simp
    · split <;> simp

/-- Every character of every part of `splitOnC sep l` occurs in `l`. -/
theorem mem_of_mem_splitOnC {sep : Char} {l : Chars} {p : Chars} {c : Char}
    (hp : p ∈ splitOnC sep l) (hc : c ∈ p) : c ∈ l := by
  induction l generalizing p with
  | nil =>
    simp only [splitOnC, List.mem_singleton] at hp
    subst hp; simp at hc
  | cons d rest ih =>
    simp only [splitOnC] at hp
    split at hp
    · rcases List.mem_cons.mp hp with h | h
      · subst h; simp at hc
      · exact List.mem_cons_of_mem _ (ih h hc)
    · rename_i hds
      rcases hr : splitOnC sep rest with _ | ⟨q, qs⟩
      · exact absurd hr (splitOnC_ne_nil sep rest)
      · rw [hr] at hp
        rcases List.mem_cons.mp hp with h | h
        · subst h
          rcases List.mem_cons.mp hc with h' | h'
          · subst h'; exact List.mem_cons_self _ _
          · exact List.mem_cons_of_mem _ (ih (hr ▸ List.mem_cons_self q qs) h')
        · exact List.mem_cons_of_mem _ (ih (hr ▸ List.mem_cons_of_mem q h) hc)

/-- The last element (with default) of a nonempty list is a member. -/
theorem getLastD_mem_of_ne_nil : ∀ (l : List Chars) (d : Chars), l ≠ [] → l.getLastD d ∈ l := by
  intro l
  induction l with
  | nil => intro d h; exact absurd rfl h
  | cons a l ih =>
    intro d _
    rw [List.getLastD_cons]
    cases l with
    | nil => simp
    | cons b l' => exact List.mem_cons_of_mem a (ih a (by simp))

/-- A list is its `takeWhile` prefix followed by the rest. -/
theorem takeWhile_append_drop (p : Char → Bool) (l : Chars) :
    l = l.takeWhile p ++ l.drop (l.takeWhile p).length := by
  induction l with
  | nil => rfl
  | cons a l ih =>
    rw [List.takeWhile_cons]
    by_cases h : p a
    · rw [if_pos h, List.cons_append, List.length_cons, List.drop_succ_cons]
      exact congrArg (a :: ·) ih
    · rw [if_neg h]
      simp

/-- Everything `takeWhile` keeps satisfies the predicate. -/
theorem all_takeWhile (p : Char → Bool) (l : Chars) : (l.takeWhile p).all p = true :=
  List.all_eq_true.mpr fun _ ha => List.mem_takeWhile_imp ha

/-! ## C1 — `best_domain_from` and its mangled regex

The lemmas below show that no candidate `best_domain_from` ever tests can
match the regex it actually compiled (`^(?:label\.)+[a-z](2, 24)$`, see
`buggy_domain_re_match`): candidates are either `normalize_domain`
outputs, which match the *correct* grammar and therefore end in letters,
or salvage-scan matches, which consist of `[a-z0-9-.]` characters only —
and the mangled regex demands a literal `", "` in the final label. -/

/-- Every remainder recorded by `chunkStops` is a suffix of the input
whose consumed prefix consists of salvage characters. -/
theorem chunkStops_spec :
    ∀ (fuel : Nat) (s rest : Chars), rest ∈ chunkStops fuel s →
      ∃ pre, s = pre ++ rest ∧ pre.all isSalvageChar = true := by
  intro fuel
  induction fuel with
  | zero => intro s rest h; simp [chunkStops] at h
  | succ fuel ih =>
    intro s rest h
    simp only [chunkStops] at h
    split at h
    · simp at h
    · split at h
      · rename_i rest2 hdrop
        have hsplit := takeWhile_append_drop isLabelChar s
        rw [hdrop] at hsplit
        have hpreall : (s.takeWhile isLabelChar).all isSalvageChar = true :=
          List.all_eq_true.mpr fun a ha => by
            have := List.mem_takeWhile_imp ha
            simp [isSalvageChar, this]
        rcases List.mem_cons.mp h with h | h
        · subst h
          refine ⟨s.takeWhile isLabelChar ++ ['.'], ?_, ?_⟩
          · simpa using hsplit
          · rw [List.all_append]
            simp [hpreall, isSalvageChar]
        · obtain ⟨pre', hpre', hall'⟩ := ih _ _ h
          refine ⟨s.takeWhile isLabelChar ++ '.' :: pre', ?_, ?_⟩
          · conv_lhs => rw [hsplit, hpre']
            simp
          · rw [List.all_append]
            simp only [List.all_cons, Bool.and_eq_true]
            refine ⟨hpreall, ?_, hall'⟩
            simp [isSalvageChar]
      · simp at h

/-- A salvage match consists of salvage characters. -/
theorem salvageMatchLen_chars {s : Chars} {len : Nat} (h : salvageMatchLen s = some len) :
    (s.take len).all isSalvageChar = true := by
  obtain ⟨rest, hrest, hf⟩ := List.exists_of_findSome?_eq_some h
  rw [List.mem_reverse] at hrest
  obtain ⟨pre, hpre, hall⟩ := chunkStops_spec _ _ _ hrest
  dsimp only at hf
  set letters := rest.takeWhile isLowerAZ with hletters
  split at hf
  · rename_i h2
    set m := min letters.length 24 with hm
    have hlen : len = s.length - rest.length + m := by
      cases hf; rfl
    have hlenpre : s.length - rest.length = pre.length := by
      rw [hpre, List.length_append]
      omega
    rw [hlen, hlenpre, hpre, List.take_append]
    rw [List.all_append, Bool.and_eq_true]
    refine ⟨hall, List.all_eq_true.mpr fun a ha => ?_⟩
    have hmin : m ≤ letters.length := hm ▸ Nat.min_le_left _ _
    obtain ⟨t, ht⟩ := (List.takeWhile_prefix isLowerAZ : rest.takeWhile isLowerAZ <+: rest)
    rw [← hletters] at ht
    have htake : rest.take m = letters.take m := by
      conv_lhs => rw [← ht]
      rw [List.take_append_eq_append_take,
        Nat.sub_eq_zero_of_le hmin, List.take_zero, List.append_nil]
    rw [htake] at ha
    have hlet : a ∈ letters := List.mem_of_mem_take ha
    rw [hletters] at hlet
    have := List.mem_takeWhile_imp hlet
    simp [isSalvageChar, isLabelChar, isLowerAlnum, this]
  · cases hf

/-- Every `re.findall` salvage match consists of salvage characters. -/
theorem salvageFindallAux_chars :
    ∀ (fuel : Nat) (s m : Chars), m ∈ salvageFindallAux fuel s →
      m.all isSalvageChar = true := by
  intro fuel
  induction fuel with
  | zero => intro s m h; simp [salvageFindallAux] at h
  | succ fuel ih =>
    intro s m h
    cases s with
    | nil => simp [salvageFindallAux] at h
    | cons c rest =>
      simp only [salvageFindallAux] at h
      split at h
      · rename_i len hlen
        rcases List.mem_cons.mp h with h | h
        · subst h; exact salvageMatchLen_chars hlen
        · exact ih _ _ h
      · exact ih _ _ h

/-- The fold used for `max(matches, key=len)` returns its seed or a list
element. -/
theorem foldl_maxlen_mem (l : List Chars) (acc : Chars) :
    l.foldl (fun best x => if best.length < x.length then x else best) acc = acc ∨
      l.foldl (fun best x => if best.length < x.length then x else best) acc ∈ l := by
  induction l generalizing acc with
  | nil => exact Or.inl rfl
  | cons a l ih =>
    simp only [List.foldl_cons]
    rcases ih (if acc.length < a.length then a else acc) with h | h
    · rw [h]
      split
      · exact Or.inr (List.mem_cons_self a l)
      · exact Or.inl rfl
    · exact Or.inr (List.mem_cons_of_mem a h)

theorem maxByLen_mem {l : List Chars} (h : l ≠ []) : maxByLen l ∈ l := by
  cases l with
  | nil => exact absurd rfl h
  | cons a t =>
    unfold maxByLen
    rcases foldl_maxlen_mem (a :: t) ((a :: t).headD []) with h' | h'
    · rw [h']
      exact List.mem_cons_self a t
    · exact h'

/-- Outputs of `find_candidate` consist of salvage characters. -/
theorem find_candidate_chars (t : Chars) : (find_candidate t).all isSalvageChar = true := by
  unfold find_candidate
  dsimp only
  split
  · rfl
  · rename_i hne
    have hmem : maxByLen (salvageFindall t) ∈ salvageFindall t :=
      maxByLen_mem (by simpa using hne)
    have hall : (maxByLen (salvageFindall t)).all isSalvageChar = true :=
      salvageFindallAux_chars _ _ _ hmem
    split
    · exact List.all_eq_true.mpr fun a ha =>
        List.all_eq_true.mp hall a (List.mem_of_mem_drop ha)
    · exact hall

/-- Outputs of `best_domain_from`'s candidate helper consist of salvage
characters. -/
theorem find_candidate_bd_chars (t : Chars) :
    (find_candidate_bd t).all isSalvageChar = true := by
  unfold find_candidate_bd
  split
  · rfl
  · exact find_candidate_chars _

/-- `normalize_domain` returns `"other"` or a string matching the correct
domain grammar. -/
theorem validate_tail_spec (c : Chars) :
    (if (!c.isEmpty && domain_re_match c) = true then c else "other".toList) =
        "other".toList ∨
      domain_re_match
        (if (!c.isEmpty && domain_re_match c) = true then c else "other".toList) = true := by
  by_cases h : (!c.isEmpty && domain_re_match c) = true
  · rw [if_pos h]
    rw [Bool.and_eq_true] at h
    exact Or.inr h.2
  · rw [if_neg h]
    exact Or.inl rfl

theorem normalize_domain_validate_spec (value s : Chars) :
    normalize_domain_validate value s = "other".toList ∨
      domain_re_match (normalize_domain_validate value s) = true := by
  unfold normalize_domain_validate
  dsimp only
  by_cases h1 : domain_re_match s = true
  · rw [if_pos h1]
    exact Or.inr h1
  · rw [if_neg h1]
    exact validate_tail_spec _

theorem normalize_domain_shape (b1 b2 : Prop) [Decidable b1] [Decidable b2]
    (value s : Chars) :
    (if b1 then "other".toList
     else if b2 then "other".toList else normalize_domain_validate value s) =
        "other".toList ∨
      domain_re_match
        (if b1 then "other".toList
         else if b2 then "other".toList else normalize_domain_validate value s) = true := by
  by_cases h1 : b1
  · rw [if_pos h1]
    exact Or.inl rfl
  · rw [if_neg h1]
    by_cases h2 : b2
    · rw [if_pos h2]
      exact Or.inl rfl
    · rw [if_neg h2]
      exact normalize_domain_validate_spec _ _

set_option maxHeartbeats 1000000 in
theorem normalize_domain_valid_or_other (v : Chars) :
    normalize_domain v = "other".toList ∨ domain_re_match (normalize_domain v) = true := by
  unfold normalize_domain
  dsimp only
  exact normalize_domain_shape _ _ _ _

/-- A string matching the correct domain grammar cannot match the mangled
regex of `best_domain_from` (its final part is all letters, the mangled
one requires a `','`). -/
theorem buggy_false_of_domain_re {x : Chars} (h : domain_re_match x = true) :
    buggy_domain_re_match x = false := by
  unfold domain_re_match at h
  rw [Bool.and_eq_true, Bool.and_eq_true] at h
  have hlast := h.2
  rw [Bool.and_eq_true, Bool.and_eq_true] at hlast
  by_contra hb
  rw [Bool.not_eq_false] at hb
  unfold buggy_domain_re_match at hb
  rw [Bool.and_eq_true] at hb
  have hb2 := hb.2
  rw [Bool.and_eq_true] at hb2
  have hdrop := hb2.2
  rw [beq_iff_eq] at hdrop
  have hcomma : ',' ∈ ((splitOnC '.' x).getLastD []).drop 1 := by
    rw [hdrop]
    decide
  have hmem : ',' ∈ (splitOnC '.' x).getLastD [] := List.mem_of_mem_drop hcomma
  have := List.all_eq_true.mp hlast.2 ',' hmem
  simp [isLowerAZ] at this

/-- A string of salvage characters cannot match the mangled regex either
(salvage characters do not include `','`). -/
theorem buggy_false_of_salvage_chars {x : Chars} (h : x.all isSalvageChar = true) :
    buggy_domain_re_match x = false := by
  by_contra hb
  rw [Bool.not_eq_false] at hb
  unfold buggy_domain_re_match at hb
  rw [Bool.and_eq_true] at hb
  have hb2 := hb.2
  rw [Bool.and_eq_true] at hb2
  have hdrop := hb2.2
  rw [beq_iff_eq] at hdrop
  have hcomma : ',' ∈ ((splitOnC '.' x).getLastD []).drop 1 := by
    rw [hdrop]
    decide
  have hmem : ',' ∈ (splitOnC '.' x).getLastD [] := List.mem_of_mem_drop hcomma
  have hlastmem : (splitOnC '.' x).getLastD [] ∈ splitOnC '.' x :=
    getLastD_mem_of_ne_nil _ _ (splitOnC_ne_nil '.' x)
  have hx : ',' ∈ x := mem_of_mem_splitOnC hlastmem hmem
  have := List.all_eq_true.mp h ',' hx
  simp [isSalvageChar, isLabelChar, isLowerAlnum, isLowerAZ, isDigit09] at this

/-- No `normalize_domain` output other than `"other"` passes the mangled
regex test. -/
theorem bd_nd_guard_false (v : Chars) :
    (decide (normalize_domain v ≠ "other".toList) &&
      buggy_domain_re_match (normalize_domain v)) = false := by
  rcases normalize_domain_valid_or_other v with h | h
  · simp [h]
  · simp [buggy_false_of_domain_re h]

/-- No salvage candidate passes the mangled regex test. -/
theorem bd_cand_guard_false (t : Chars) :
    (!(find_candidate_bd t).isEmpty && buggy_domain_re_match (find_candidate_bd t)) = false := by
  simp [buggy_false_of_salvage_chars (find_candidate_bd_chars t)]

/-- C1: `best_domain_from` never returns anything but `"other"` — the
f-string `rf"^(?:{label}\.)+[a-z]{2,24}$"` in its body interpolates the
tuple `(2, 24)` instead of the quantifier (the braces are not doubled, cf.
the NOTE comment in `normalize_domain` which escapes them), so the
validation regex can never accept a real domain and every fallback fails.
In particular the claim's contract (return the normalized `domain` field
when it is valid, then URL host, then e-mail domain, then salvage scan)
is violated at e.g. `domain = "acme.com"`: `normalize_domain` accepts it,
yet `best_domain_from` answers `"other"`. -/
theorem best_domain_from_code_bug :
    normalize_domain "acme.com".toList = "acme.com".toList ∧
    best_domain_from "acme.com".toList [] [] = "other".toList ∧
    (∀ d u n, best_domain_from d u n = "other".toList) := by
  have halways : ∀ d u n, best_domain_from d u n = "other".toList := by
    intro d u n
    unfold best_domain_from
    dsimp only
    simp only [bd_nd_guard_false, bd_cand_guard_false, Bool.false_eq_true, if_false, ite_self]
  exact ⟨by decide, halways _ _ _, halways⟩

/-! ## C5 — domain root collapsing -/

/-- C5: `extract_root_domain` collapses `mail.acme.co.id` to `acme.co.id`
(multi-label public suffix `co.id` plus one label), keeps `acme.com`
(last two labels), rejects the suffix-only `go.id` as `other`, keeps the
allow-listed `desa.id`, and rejects `net.id` (member of the invalid-root
set) as `other`. -/
theorem extract_root_domain_cases :
    extract_root_domain "mail.acme.co.id".toList = "acme.co.id".toList ∧
    extract_root_domain "acme.com".toList = "acme.com".toList ∧
    extract_root_domain "go.id".toList = "other".toList ∧
    extract_root_domain "desa.id".toList = "desa.id".toList ∧
    extract_root_domain "net.id".toList = "other".toList := by
  refine ⟨?_, ?_, ?_, ?_, ?_⟩ <;> decide

/-! ## C6 — parser precedence -/

/-- C6: on `"http://x.com alice@x.com:secret"` the cascade stops at
pattern 1 with `url=http://x.com`, `username=alice@x.com`,
`password=secret` — even though a later pattern (pattern 13) also matches
this line, as the second conjunct shows; the first matching pattern in
cascade order wins. -/
theorem parse_precedence_pattern1 :
    parse_credential_line "http://x.com alice@x.com:secret".toList =
      some ⟨"http://x.com".toList, "alice@x.com".toList, "secret".toList,
        "http://x.com alice@x.com:secret".toList, 1⟩ ∧
    tryPattern13 "http://x.com alice@x.com:secret".toList =
      some ⟨"http://x.com".toList, "alice@x.com".toList, "secret".toList,
        "http://x.com alice@x.com:secret".toList, 13⟩ := by
  constructor <;> decide

/-! ## C10 — the encoding fallback is UTF-8 alone -/

/-- Bytes below `0x80` decode under UTF-8 to themselves (any sufficient
fuel). -/
theorem utf8DecodeAux_of_ascii :
    ∀ (fuel : Nat) (bs : List Nat), bs.length ≤ fuel → bs.all (· < 0x80) = true →
      utf8DecodeAux fuel bs = some bs := by
  intro fuel
  induction fuel with
  | zero =>
    intro bs hlen _
    cases bs with
    | nil => rfl
    | cons b rest => simp at hlen
  | succ fuel ih =>
    intro bs hlen hall
    cases bs with
    | nil => rfl
    | cons b rest =>
      rw [List.all_cons, Bool.and_eq_true] at hall
      have hb : b < 0x80 := by simpa using hall.1
      have hone : utf8DecodeOne (b :: rest) = some (b, rest) := by
        simp only [utf8DecodeOne]
        rw [if_pos hb]
      simp only [utf8DecodeAux, hone]
      rw [ih rest (by simpa using Nat.le_of_succ_le_succ hlen) hall.2]
      rfl

/-- Bytes below `0x80` decode under UTF-8 to themselves. -/
theorem utf8Decode_of_ascii {bs : List Nat} (h : bs.all (· < 0x80) = true) :
    utf8Decode bs = some bs :=
  utf8DecodeAux_of_ascii bs.length bs le_rfl h

/-- C10: the two-step fallback `['utf-8', 'ascii']` of
`read_credentials_from_file` is equivalent to trying UTF-8 alone: ASCII
decoding succeeds only on inputs where UTF-8 decoding already succeeded
with the same result, so a file is read iff it is valid UTF-8. -/
theorem encoding_fallback_equiv_utf8 :
    (∀ bs, readContentWithFallback sourceEncodings bs = pyDecode .utf8 bs) ∧
    (∀ bs s, pyDecode .ascii bs = some s → pyDecode .utf8 bs = some s) := by
  have hasc : ∀ bs s, pyDecode .ascii bs = some s → pyDecode .utf8 bs = some s := by
    intro bs s h
    simp only [pyDecode, asciiDecode] at h
    split at h
    · rename_i hall
      cases h
      exact utf8Decode_of_ascii hall
    · cases h
  refine ⟨?_, hasc⟩
  intro bs
  simp only [readContentWithFallback, sourceEncodings]
  cases hu : pyDecode .utf8 bs with
  | some c => rfl
  | none =>
    cases ha : pyDecode .ascii bs with
    | none => rfl
    | some s => exact absurd (hasc bs s ha) (by simp [hu])

/-! ## C3 — bulk upsert has no per-row error handling -/

/-- C3 counterexample: with a store whose insert fails on the first row,
`bulk_upsert_credentials` over a two-credential batch (a failing row
followed by a perfectly good one) returns the error — the loop contains
no per-row `try`, so the batch is aborted and the second credential is
never processed, contradicting the claim that a single-row failure is
caught inside the loop and processing continues. -/
theorem bulk_upsert_abort_counterexample :
    bulk_upsert_credentials failOnBadUpsert DB.empty
      [("http://bad.example".toList, "u1".toList, "p1".toList),
       ("http://good.example".toList, "u2".toList, "p2".toList)] =
      .error "insert failed".toList := by
  rfl

/-- C3 amended: `bulk_upsert_credentials` silently skips credentials with
an empty url/username/password (they affect neither the store nor the
counts), but it has no per-row error handling: an error raised while
upserting one individual credential propagates out of the loop and aborts
the whole remaining batch, whatever that remainder is. -/
theorem bulk_upsert_row_behaviour :
    (∀ (upsert : DB → Chars → Chars → Chars → Except Chars (DB × Nat × Bool))
       (db : DB) (url username password : Chars) (rest : List (Chars × Chars × Chars)),
       (url.isEmpty || username.isEmpty || password.isEmpty) = true →
       bulk_upsert_credentials upsert db ((url, username, password) :: rest) =
         bulk_upsert_credentials upsert db rest) ∧
    (∀ (upsert : DB → Chars → Chars → Chars → Except Chars (DB × Nat × Bool))
       (db : DB) (url username password : Chars) (e : Chars)
       (rest : List (Chars × Chars × Chars)),
       (!url.isEmpty && !username.isEmpty && !password.isEmpty) = true →
       upsert db url username password = .error e →
       bulk_upsert_credentials upsert db ((url, username, password) :: rest) = .error e) := by
  constructor
  · intro upsert db url username password rest h
    have hcond : (!url.isEmpty && !username.isEmpty && !password.isEmpty) = false := by
      rcases Bool.or_eq_true_iff.mp h with h' | h'
      · rcases Bool.or_eq_true_iff.mp h' with h'' | h'' <;> simp [h'']
      · simp [h']
    rw [bulk_upsert_credentials]
    simp only [hcond, Bool.false_eq_true, if_false]
  · intro upsert db url username password e rest hfields herr
    rw [bulk_upsert_credentials]
    simp only [hfields, if_true, herr]

/-- Witness for `bulk_upsert_row_behaviour` at concrete inputs: an
empty-username row is skipped, and a failing first row aborts a batch that
still contains a good credential. -/
theorem bulk_upsert_row_behaviour_witness :
    bulk_upsert_credentials failOnBadUpsert DB.empty
        [("http://a.example".toList, [], "p".toList)] =
      bulk_upsert_credentials failOnBadUpsert DB.empty [] ∧
    bulk_upsert_credentials failOnBadUpsert DB.empty
        [("http://bad.example".toList, "u1".toList, "p1".toList),
         ("http://good.example".toList, "u2".toList, "p2".toList)] =
      .error "insert failed".toList :=
  ⟨bulk_upsert_row_behaviour.1 failOnBadUpsert DB.empty
      "http://a.example".toList [] "p".toList [] (by decide),
   bulk_upsert_row_behaviour.2 failOnBadUpsert DB.empty
      "http://bad.example".toList "u1".toList "p1".toList "insert failed".toList
      [("http://good.example".toList, "u2".toList, "p2".toList)] (by decide) (by rfl)⟩

/-! ## C4 — cooperative cancel during collecting -/

/-- C4: when the job's flags are clear on entry (the job is genuinely in
`collecting`), (i) an unthrottled `should_stop` call that observes
`cancel_requested` raises the cancellation signal, and (ii) a worker whose
collecting call ends in that signal finishes with status `cancelled` and
`completed_at` set, leaving the credential store untouched (zero new
`Credential` rows, no parsing/upserting side effects); an ordinary
exception instead takes the distinct `failed` path. -/
theorem cancel_during_collecting
    (job0 : ScanJob) (db0 : DB) (job_id : Chars) (now : Nat)
    (hc : job0.cancel_requested = false) (hp : job0.pause_requested = false) :
    (∀ (lastCheck tnow : Nat) (j : ScanJob), 500 ≤ tnow - lastCheck →
        j.cancel_requested = true →
        should_stop_check lastCheck tnow (some j) = .error .cancel) ∧
    (process_intelx_scan job0 db0 .cancel job_id now).1.status = "cancelled".toList ∧
    (process_intelx_scan job0 db0 .cancel job_id now).1.completed_at = some now ∧
    (process_intelx_scan job0 db0 .cancel job_id now).2 = db0 ∧
    (process_intelx_scan job0 db0 (.fail "boom".toList) job_id now).1.status =
      "failed".toList := by
  have hstop : ∀ (lastCheck tnow : Nat) (j : ScanJob), 500 ≤ tnow - lastCheck →
      j.cancel_requested = true →
      should_stop_check lastCheck tnow (some j) = .error .cancel := by
    intro lastCheck tnow j hthrottle hcancel
    unfold should_stop_check
    rw [if_neg (by omega)]
    simp [hcancel]
  refine ⟨hstop, ?_, ?_, ?_, ?_⟩ <;>
    simp [process_intelx_scan, hc, hp]

/-- Witness for `cancel_during_collecting` at a concrete job and store. -/
theorem cancel_during_collecting_witness :
    (∀ (lastCheck tnow : Nat) (j : ScanJob), 500 ≤ tnow - lastCheck →
        j.cancel_requested = true →
        should_stop_check lastCheck tnow (some j) = .error .cancel) ∧
    (process_intelx_scan
        { status := "queued".toList, cancel_requested := false, pause_requested := false }
        DB.empty .cancel "job7".toList 42).1.status = "cancelled".toList ∧
    (process_intelx_scan
        { status := "queued".toList, cancel_requested := false, pause_requested := false }
        DB.empty .cancel "job7".toList 42).1.completed_at = some 42 ∧
    (process_intelx_scan
        { status := "queued".toList, cancel_requested := false, pause_requested := false }
        DB.empty .cancel "job7".toList 42).2 = DB.empty ∧
    (process_intelx_scan
        { status := "queued".toList, cancel_requested := false, pause_requested := false }
        DB.empty (.fail "boom".toList) "job7".toList 42).1.status = "failed".toList :=
  cancel_during_collecting
    { status := "queued".toList, cancel_requested := false, pause_requested := false }
    DB.empty "job7".toList 42 rfl rfl

/-! ## C2 — idempotence of `upsert_credential` -/

/-- A predicate filtering to a singleton is found by `find?`, and it finds
exactly that element. -/
theorem find?_of_filter_singleton {p : Credential → Bool} :
    ∀ {l : List Credential} {c : Credential}, l.filter p = [c] → l.find? p = some c := by
  intro l
  induction l with
  | nil => intro c h; simp at h
  | cons a t ih =>
    intro c h
    by_cases hpa : p a = true
    · rw [List.filter_cons_of_pos hpa] at h
      obtain ⟨h1, h2⟩ := List.cons_eq_cons.mp h
      rw [List.find?_cons_of_pos _ hpa, h1]
    · rw [List.filter_cons_of_neg (by simpa using hpa)] at h
      rw [List.find?_cons_of_neg _ (by simpa using hpa)]
      exact ih h

/-- `bumpFirst` on a store whose triple-filter is a singleton updates
exactly that row. -/
theorem bumpFirst_filter {u un pw : Chars} (now : Nat) :
    ∀ {l : List Credential} {c : Credential}, l.filter (tripleMatches u un pw) = [c] →
      (bumpFirst u un pw now l).filter (tripleMatches u un pw) =
        [{ c with last_seen := now, seen_count := c.seen_count + 1 }] := by
  intro l
  induction l with
  | nil => intro c h; simp at h
  | cons a t ih =>
    intro c h
    by_cases hpa : tripleMatches u un pw a = true
    · rw [List.filter_cons_of_pos hpa] at h
      obtain ⟨h1, h2⟩ := List.cons_eq_cons.mp h
      subst h1
      unfold bumpFirst
      rw [if_pos hpa]
      have hbump : tripleMatches u un pw
          { a with last_seen := now, seen_count := a.seen_count + 1 } = true := by
        simpa [tripleMatches] using hpa
      rw [List.filter_cons_of_pos hbump, h2]
    · rw [List.filter_cons_of_neg (by simpa using hpa)] at h
      unfold bumpFirst
      rw [if_neg (by simpa using hpa)]
      rw [List.filter_cons_of_neg (by simpa using hpa)]
      exact ih h

/-- `upsert_credential` on a store with no row for the triple inserts a
fresh row with `first_seen = last_seen = now`, `seen_count = 1`, and
records a `JobCredential` with `is_new = true`. -/
theorem upsert_insert_spec (db : DB) (url username password job_id : Chars) (now : Nat)
    (habs : db.creds.filter (tripleMatches url username password) = []) :
    upsert_credential db url username password job_id now =
      (⟨db.creds ++ [⟨db.next_id, url, username, password, upsert_domain url username,
          check_admin_keywords username password, now, now, 1⟩],
        db.job_creds ++ [⟨job_id, db.next_id, true⟩],
        db.next_id + 1⟩, db.next_id, true) := by
  have hfind : db.creds.find? (tripleMatches url username password) = none := by
    rw [List.find?_eq_none]
    intro x hx
    intro hpx
    have : x ∈ db.creds.filter (tripleMatches url username password) :=
      List.mem_filter.mpr ⟨hx, hpx⟩
    rw [habs] at this
    simp at this
  unfold upsert_credential
  rw [hfind]

/-- `upsert_credential` on a store whose triple-filter is the singleton
`[c]` bumps that row's `seen_count`, refreshes `last_seen`, appends a
`JobCredential` with `is_new = false`, and returns `(c.id, false)`. -/
theorem upsert_update_spec (db : DB) (url username password job_id : Chars) (now : Nat)
    (c : Credential) (hc : db.creds.filter (tripleMatches url username password) = [c]) :
    upsert_credential db url username password job_id now =
      (⟨bumpFirst url username password now db.creds,
        db.job_creds ++ [⟨job_id, c.id, false⟩], db.next_id⟩, c.id, false) := by
  have hfind : db.creds.find? (tripleMatches url username password) = some c :=
    find?_of_filter_singleton hc
  unfold upsert_credential
  rw [hfind]

/-- Iterating `upsert_credential` over further calls, starting from a
store whose triple-filter is `[c]`: every call reports a duplicate, the
row keeps its identity and `first_seen`, its `seen_count` grows by the
number of calls, and `last_seen` becomes the last call's timestamp. -/
theorem upsert_many_existing (url username password : Chars) :
    ∀ (calls : List (Chars × Nat)) (db : DB) (c : Credential),
      db.creds.filter (tripleMatches url username password) = [c] →
      (upsert_many db url username password calls).2 =
          List.replicate calls.length false ∧
        (upsert_many db url username password calls).1.next_id = db.next_id ∧
        (upsert_many db url username password calls).1.job_creds =
          db.job_creds ++ calls.map (fun jt => ⟨jt.1, c.id, false⟩) ∧
        (upsert_many db url username password calls).1.creds.filter
            (tripleMatches url username password) =
          [{ c with last_seen := (calls.map Prod.snd).getLastD c.last_seen, seen_count := c.seen_count + calls.length }] := by
  intro calls
  induction calls with
  | nil =>
    intro db c hc
    refine ⟨rfl, rfl, by simp [upsert_many], ?_⟩
    simpa [upsert_many] using hc
  | cons jt rest ih =>
    intro db c hc
    obtain ⟨j, t⟩ := jt
    have hstep := upsert_update_spec db url username password j t c hc
    have hfilter1 := @bumpFirst_filter url username password t _ _ hc
    set c1 : Credential := { c with last_seen := t, seen_count := c.seen_count + 1 } with hc1
    have hdb1 : (upsert_credential db url username password j t).1 =
        ⟨bumpFirst url username password t db.creds,
          db.job_creds ++ [⟨j, c.id, false⟩], db.next_id⟩ := by rw [hstep]
    obtain ⟨hflags, hnext, hjobs, hfilt⟩ :=
      ih ⟨bumpFirst url username password t db.creds,
        db.job_creds ++ [⟨j, c.id, false⟩], db.next_id⟩ c1 hfilter1
    have hexpand : upsert_many db url username password ((j, t) :: rest) =
        ((upsert_many (upsert_credential db url username password j t).1
            url username password rest).1,
          (upsert_credential db url username password j t).2.2 ::
            (upsert_many (upsert_credential db url username password j t).1
              url username password rest).2) := rfl
    rw [hexpand, hdb1, hstep]
    refine ⟨?_, ?_, ?_, ?_⟩
    · simp only [hflags]
      rfl
    · simpa using hnext
    · rw [hjobs]
      simp [hc1]
    · rw [hfilt, hc1]
      simp only [List.map_cons, List.getLastD_cons]
      have harith : c.seen_count + 1 + rest.length = c.seen_count + (rest.length + 1) := by
        omega
      simp [harith]

/-- C2: upserting one identical `(url, username, password)` triple through
`first :: rest` calls (arbitrary job ids and timestamps), starting from a
store with no row for the triple, leaves exactly one row for it: its
`seen_count` is the number of calls, `first_seen` is the first call's
timestamp (unchanged thereafter), `last_seen` is the last call's
timestamp; the first call reports and records `is_new = true` (with
`seen_count` initialised to 1 — visible in the `rest = []` case), every
later call reports and records `is_new = false` in its `JobCredential`
association. -/
theorem upsert_idempotence
    (db0 : DB) (url username password : Chars)
    (first : Chars × Nat) (rest : List (Chars × Nat))
    (habs : db0.creds.filter (tripleMatches url username password) = []) :
    (upsert_many db0 url username password (first :: rest)).1.creds.filter
        (tripleMatches url username password) =
      [⟨db0.next_id, url, username, password, upsert_domain url username,
        check_admin_keywords username password, first.2,
        (rest.map Prod.snd).getLastD first.2, rest.length + 1⟩] ∧
    (upsert_many db0 url username password (first :: rest)).2 =
      true :: List.replicate rest.length false ∧
    (upsert_many db0 url username password (first :: rest)).1.job_creds =
      db0.job_creds ++ ⟨first.1, db0.next_id, true⟩ ::
        rest.map (fun jt => ⟨jt.1, db0.next_id, false⟩) := by
  obtain ⟨j1, t1⟩ := first
  have hstep := upsert_insert_spec db0 url username password j1 t1 habs
  set newC : Credential :=
    ⟨db0.next_id, url, username, password, upsert_domain url username,
      check_admin_keywords username password, t1, t1, 1⟩ with hnewC
  have hfilter1 : (db0.creds ++ [newC]).filter (tripleMatches url username password) =
      [newC] := by
    rw [List.filter_append, habs]
    have : tripleMatches url username password newC = true := by
      simp [tripleMatches, hnewC]
    simp [this]
  obtain ⟨hflags, hnext, hjobs, hfilt⟩ :=
    upsert_many_existing url username password rest
      ⟨db0.creds ++ [newC], db0.job_creds ++ [⟨j1, db0.next_id, true⟩], db0.next_id + 1⟩
      newC hfilter1
  have hexpand : upsert_many db0 url username password ((j1, t1) :: rest) =
      ((upsert_many (upsert_credential db0 url username password j1 t1).1
          url username password rest).1,
        (upsert_credential db0 url username password j1 t1).2.2 ::
          (upsert_many (upsert_credential db0 url username password j1 t1).1
            url username password rest).2) := rfl
  rw [hexpand, hstep]
  refine ⟨?_, ?_, ?_⟩
  · rw [hfilt]
    simp only [hnewC, List.map_cons, List.getLastD_cons]
    have harith : 1 + rest.length = rest.length + 1 := by omega
    simp [harith]
  · rw [hflags]
  · rw [hjobs]
    simp [hnewC]

/-- Witness for `upsert_idempotence`: three upserts of one concrete triple
from the empty store. -/
theorem upsert_idempotence_witness :
    (upsert_many DB.empty "http://a.example".toList "alice".toList "pw".toList
        [("j1".toList, 10), ("j2".toList, 20), ("j3".toList, 30)]).1.creds.filter
        (tripleMatches "http://a.example".toList "alice".toList "pw".toList) =
      [⟨0, "http://a.example".toList, "alice".toList, "pw".toList,
        upsert_domain "http://a.example".toList "alice".toList,
        check_admin_keywords "alice".toList "pw".toList, 10, 30, 3⟩] ∧
    (upsert_many DB.empty "http://a.example".toList "alice".toList "pw".toList
        [("j1".toList, 10), ("j2".toList, 20), ("j3".toList, 30)]).2 =
      [true, false, false] ∧
    (upsert_many DB.empty "http://a.example".toList "alice".toList "pw".toList
        [("j1".toList, 10), ("j2".toList, 20), ("j3".toList, 30)]).1.job_creds =
      [⟨"j1".toList, 0, true⟩, ⟨"j2".toList, 0, false⟩, ⟨"j3".toList, 0, false⟩] := by
  have h := upsert_idempotence DB.empty "http://a.example".toList "alice".toList "pw".toList
    ("j1".toList, 10) [("j2".toList, 20), ("j3".toList, 30)] (by rfl)
  simpa using h

/-! ## C7 — per-batch duplicate suppression -/

/-- The element of an append at the length of the left part. -/
theorem getD_append_length (pre : List Chars) (l : Chars) (rest : List Chars) :
    (pre ++ l :: rest).getD pre.length [] = l := by
  induction pre with
  | nil => rfl
  | cons a t ih => simpa using ih

/-- Invariant of the `parse_credentials_from_list` loop.  `pre` is the
already-processed prefix, `suffix` the lines still to process, and `seen`
holds exactly the keys of the parses of `pre`'s lines.  The loop output:
keys ∉ `seen`, pairwise-distinct keys, and each record is the parse of its
1-based line with no earlier line (in the whole list) parsing to the same
key. -/
theorem parse_aux_spec :
    ∀ (suffix pre seen : List Chars),
      (∀ k, k ∈ seen ↔ ∃ j, j < pre.length ∧ ∃ q,
          parse_credential_line ((pre ++ suffix).getD j []) = some q ∧ parsedKey q = k) →
      (∀ r ∈ parse_from_list_aux suffix (pre.length + 1) seen, recKey r ∉ seen) ∧
      ((parse_from_list_aux suffix (pre.length + 1) seen).map recKey).Nodup ∧
      (∀ r ∈ parse_from_list_aux suffix (pre.length + 1) seen,
        pre.length + 1 ≤ r.line_num ∧ r.line_num ≤ (pre ++ suffix).length ∧
        (∃ p, parse_credential_line ((pre ++ suffix).getD (r.line_num - 1) []) = some p ∧
          r.url = p.url ∧ r.username = p.username ∧ r.password = p.password ∧
          r.original = p.original ∧ r.pattern_id = p.pattern_id) ∧
        (∀ j, j + 1 < r.line_num → ∀ q,
          parse_credential_line ((pre ++ suffix).getD j []) = some q →
          parsedKey q ≠ recKey r)) := by
  intro suffix
  induction suffix with
  | nil =>
    intro pre seen hseen
    refine ⟨?_, ?_, ?_⟩ <;> simp [parse_from_list_aux]
  | cons l rest ih =>
    intro pre seen hseen
    have hlist : pre ++ l :: rest = (pre ++ [l]) ++ rest := by simp
    have hlen1 : (pre ++ [l]).length = pre.length + 1 := by simp
    cases hp : parse_credential_line l with
    | none =>
      have hstep : parse_from_list_aux (l :: rest) (pre.length + 1) seen =
          parse_from_list_aux rest (pre.length + 1 + 1) seen := by
        simp [parse_from_list_aux, hp]
      have hseen' : ∀ k, k ∈ seen ↔ ∃ j, j < (pre ++ [l]).length ∧ ∃ q,
          parse_credential_line (((pre ++ [l]) ++ rest).getD j []) = some q ∧
            parsedKey q = k := by
        intro k
        rw [hseen k]
        constructor
        · rintro ⟨j, hj, q, hq, hk⟩
          refine ⟨j, by rw [hlen1]; omega, q, ?_, hk⟩
          rw [← hlist]
          exact hq
        · rintro ⟨j, hj, q, hq, hk⟩
          rw [hlen1] at hj
          by_cases hjp : j < pre.length
          · refine ⟨j, hjp, q, ?_, hk⟩
            rw [hlist]
            exact hq
          · have hj' : j = pre.length := by omega
            subst hj'
            rw [← hlist, getD_append_length, hp] at hq
            cases hq
      obtain ⟨hA, hB, hC⟩ := ih (pre ++ [l]) seen hseen'
      rw [hlen1] at hA hB hC
      rw [hstep]
      refine ⟨hA, hB, ?_⟩
      intro r hr
      obtain ⟨hb1, hb2, hprod, hfirst⟩ := hC r hr
      refine ⟨by omega, ?_, ?_, ?_⟩
      · rw [hlist]
        exact hb2
      · rw [hlist]
        exact hprod
      · intro j hj q hq
        apply hfirst j hj q
        rw [← hlist]
        exact hq
    | some p =>
      by_cases hk : seen.contains (credKey p.url p.username p.password) = true
      · have hstep : parse_from_list_aux (l :: rest) (pre.length + 1) seen =
            parse_from_list_aux rest (pre.length + 1 + 1) seen := by
          simp only [parse_from_list_aux, hp]
          rw [if_pos hk]
        have hseen' : ∀ k, k ∈ seen ↔ ∃ j, j < (pre ++ [l]).length ∧ ∃ q,
            parse_credential_line (((pre ++ [l]) ++ rest).getD j []) = some q ∧
              parsedKey q = k := by
          intro k
          constructor
          · intro hmem
            obtain ⟨j, hj, q, hq, hkq⟩ := (hseen k).mp hmem
            refine ⟨j, by rw [hlen1]; omega, q, ?_, hkq⟩
            rw [← hlist]
            exact hq
          · rintro ⟨j, hj, q, hq, hkq⟩
            rw [hlen1] at hj
            by_cases hjp : j < pre.length
            · refine (hseen k).mpr ⟨j, hjp, q, ?_, hkq⟩
              rw [hlist]
              exact hq
            · have hj' : j = pre.length := by omega
              subst hj'
              rw [← hlist, getD_append_length, hp] at hq
              cases hq
              rw [← hkq]
              simpa [parsedKey] using hk
        obtain ⟨hA, hB, hC⟩ := ih (pre ++ [l]) seen hseen'
        rw [hlen1] at hA hB hC
        rw [hstep]
        refine ⟨hA, hB, ?_⟩
        intro r hr
        obtain ⟨hb1, hb2, hprod, hfirst⟩ := hC r hr
        refine ⟨by omega, ?_, ?_, ?_⟩
        · rw [hlist]
          exact hb2
        · rw [hlist]
          exact hprod
        · intro j hj q hq
          apply hfirst j hj q
          rw [← hlist]
          exact hq
      · have hstep : parse_from_list_aux (l :: rest) (pre.length + 1) seen =
            ⟨pre.length + 1, p.url, p.username, p.password, p.original, p.pattern_id⟩ ::
              parse_from_list_aux rest (pre.length + 1 + 1)
                (credKey p.url p.username p.password :: seen) := by
          simp only [parse_from_list_aux, hp]
          rw [if_neg hk]
        have hseen' : ∀ k, k ∈ (credKey p.url p.username p.password :: seen) ↔
            ∃ j, j < (pre ++ [l]).length ∧ ∃ q,
              parse_credential_line (((pre ++ [l]) ++ rest).getD j []) = some q ∧
                parsedKey q = k := by
          intro k
          constructor
          · intro hmem
            rcases List.mem_cons.mp hmem with hmem | hmem
            · refine ⟨pre.length, by rw [hlen1]; omega, p, ?_, ?_⟩
              · rw [← hlist, getD_append_length]
                exact hp
              · rw [hmem]
                rfl
            · obtain ⟨j, hj, q, hq, hkq⟩ := (hseen k).mp hmem
              refine ⟨j, by rw [hlen1]; omega, q, ?_, hkq⟩
              rw [← hlist]
              exact hq
          · rintro ⟨j, hj, q, hq, hkq⟩
            rw [hlen1] at hj
            by_cases hjp : j < pre.length
            · refine List.mem_cons_of_mem _ ((hseen k).mpr ⟨j, hjp, q, ?_, hkq⟩)
              rw [hlist]
              exact hq
            · have hj' : j = pre.length := by omega
              subst hj'
              rw [← hlist, getD_append_length, hp] at hq
              cases hq
              rw [← hkq]
              exact List.mem_cons_self _ _
        obtain ⟨hA, hB, hC⟩ := ih (pre ++ [l]) (credKey p.url p.username p.password :: seen)
          hseen'
        rw [hlen1] at hA hB hC
        rw [hstep]
        have hkmem : credKey p.url p.username p.password ∉ seen := by
          intro hmem
          exact absurd (List.elem_eq_true_of_mem hmem) (by simpa using hk)
        refine ⟨?_, ?_, ?_⟩
        · intro r hr
          rcases List.mem_cons.mp hr with hr | hr
          · subst hr
            exact hkmem
          · intro hmem
            exact hA r hr (List.mem_cons_of_mem _ hmem)
        · rw [List.map_cons, List.nodup_cons]
          refine ⟨?_, hB⟩
          intro hmem
          obtain ⟨r, hr, hkr⟩ := List.mem_map.mp hmem
          exact hA r hr (by rw [hkr]; exact List.mem_cons_self _ _)
        · intro r hr
          rcases List.mem_cons.mp hr with hr | hr
          · subst hr
            dsimp only
            refine ⟨le_rfl, ?_, ?_, ?_⟩
            · rw [hlist, List.length_append, hlen1]
              omega
            · refine ⟨p, ?_, rfl, rfl, rfl, rfl, rfl⟩
              have : pre.length + 1 - 1 = pre.length := by omega
              rw [this, getD_append_length]
              exact hp
            · intro j hj q hq hkeq
              have hjp : j < pre.length := by omega
              have : credKey p.url p.username p.password ∈ seen := by
                refine (hseen _).mpr ⟨j, hjp, q, hq, ?_⟩
                simpa [recKey, parsedKey] using hkeq
              exact hkmem this
          · obtain ⟨hb1, hb2, hprod, hfirst⟩ := hC r hr
            refine ⟨by omega, ?_, ?_, ?_⟩
            · rw [hlist]
              exact hb2
            · rw [hlist]
              exact hprod
            · intro j hj q hq
              apply hfirst j hj q
              rw [← hlist]
              exact hq

/-- C7: the batch parse emits at most one record per triple — the
returned count is the length of the emitted list, no two emitted records
share a `(url, username, password)` triple, and every emitted record is
the parse of its (1-based) line with no earlier line parsing to the same
triple (later duplicates are skipped, not re-emitted). -/
theorem parse_batch_dedup (lines : List Chars) :
    (parse_credentials_from_list lines).2 = (parse_credentials_from_list lines).1.length ∧
    List.Pairwise (fun a b => tripleOfRec a ≠ tripleOfRec b)
      (parse_credentials_from_list lines).1 ∧
    ∀ r ∈ (parse_credentials_from_list lines).1,
      1 ≤ r.line_num ∧ r.line_num ≤ lines.length ∧
      (∃ p, parse_credential_line (lines.getD (r.line_num - 1) []) = some p ∧
        r.url = p.url ∧ r.username = p.username ∧ r.password = p.password) ∧
      ∀ j, j + 1 < r.line_num → ∀ q,
        parse_credential_line (lines.getD j []) = some q →
        tripleOfParsed q ≠ tripleOfRec r := by
  obtain ⟨hA, hB, hC⟩ := parse_aux_spec lines [] [] (by intro k; simp)
  refine ⟨rfl, ?_, ?_⟩
  · have hkeys : List.Pairwise (fun a b => recKey a ≠ recKey b)
        (parse_from_list_aux lines 1 []) := List.pairwise_map.mp hB
    refine hkeys.imp ?_
    intro a b hab htriple
    apply hab
    have h1 : a.url = b.url := congrArg Prod.fst htriple
    have h2 : a.username = b.username := congrArg (fun t => t.2.1) htriple
    have h3 : a.password = b.password := congrArg (fun t => t.2.2) htriple
    simp [recKey, credKey, h1, h2, h3]
  · intro r hr
    obtain ⟨hb1, hb2, ⟨p, hp, hu, hun, hpw, _, _⟩, hfirst⟩ := hC r hr
    refine ⟨hb1, by simpa using hb2, ⟨p, by simpa using hp, hu, hun, hpw⟩, ?_⟩
    intro j hj q hq htriple
    refine hfirst j hj q (by simpa using hq) ?_
    have h1 : q.url = r.url := congrArg Prod.fst htriple
    have h2 : q.username = r.username := congrArg (fun t => t.2.1) htriple
    have h3 : q.password = r.password := congrArg (fun t => t.2.2) htriple
    simp [recKey, parsedKey, credKey, h1, h2, h3]

/-- Witness for `parse_batch_dedup` at a concrete three-line batch (the
second line repeats the first). -/
theorem parse_batch_dedup_witness :
    (parse_credentials_from_list
        ["http://a.com x:y".toList, "http://a.com x:y".toList, "http://b.com u:v".toList]).2 =
      (parse_credentials_from_list
        ["http://a.com x:y".toList, "http://a.com x:y".toList, "http://b.com u:v".toList]).1.length ∧
    List.Pairwise (fun a b => tripleOfRec a ≠ tripleOfRec b)
      (parse_credentials_from_list
        ["http://a.com x:y".toList, "http://a.com x:y".toList, "http://b.com u:v".toList]).1 ∧
    ∀ r ∈ (parse_credentials_from_list
        ["http://a.com x:y".toList, "http://a.com x:y".toList, "http://b.com u:v".toList]).1,
      1 ≤ r.line_num ∧ r.line_num ≤
        (["http://a.com x:y".toList, "http://a.com x:y".toList,
          "http://b.com u:v".toList] : List Chars).length ∧
      (∃ p, parse_credential_line
          ((["http://a.com x:y".toList, "http://a.com x:y".toList,
            "http://b.com u:v".toList] : List Chars).getD (r.line_num - 1) []) = some p ∧
        r.url = p.url ∧ r.username = p.username ∧ r.password = p.password) ∧
      ∀ j, j + 1 < r.line_num → ∀ q,
        parse_credential_line
          ((["http://a.com x:y".toList, "http://a.com x:y".toList,
            "http://b.com u:v".toList] : List Chars).getD j []) = some q →
        tripleOfParsed q ≠ tripleOfRec r :=
  parse_batch_dedup
    ["http://a.com x:y".toList, "http://a.com x:y".toList, "http://b.com u:v".toList]

/-! ## C9 — every parsed record has an `http`-prefixed URL -/

theorem dropWhile_eq_self_of_all {l : Chars} (h : l.all (fun c => !isPySpace c) = true) :
    l.dropWhile isPySpace = l := by
  cases l with
  | nil => rfl
  | cons a t =>
    rw [List.all_cons, Bool.and_eq_true] at h
    rw [List.dropWhile_cons_of_neg]
    simpa using h.1

/-- Stripping a string with no whitespace is the identity. -/
theorem pyStrip_of_all_nonspace {l : Chars} (h : l.all (fun c => !isPySpace c) = true) :
    pyStrip l = l := by
  unfold pyStrip
  rw [dropWhile_eq_self_of_all h, dropWhile_eq_self_of_all (by simpa using h),
    List.reverse_reverse]

/-- Stripping a run of characters whose predicate excludes whitespace is
the identity. -/
theorem pyStrip_run {p : Char → Bool} (hp : ∀ c, p c = true → isPySpace c = false)
    (l : Chars) : pyStrip (l.takeWhile p) = l.takeWhile p := by
  apply pyStrip_of_all_nonspace
  refine List.all_eq_true.mpr fun c hc => ?_
  have := List.mem_takeWhile_imp hc
  simp [hp c this]

/-- A nonempty string starting with `http` (as a prefix relation) is a
nonempty `http`-prefixed URL in the `isPrefixOf` sense. -/
theorem url_ok_of_http_prefix {x : Chars} (hpre : "http".toList <+: x) :
    x ≠ [] ∧ "http".toList.isPrefixOf x = true := by
  refine ⟨?_, List.isPrefixOf_iff_prefix.mpr hpre⟩
  intro hx
  subst hx
  simpa using hpre.length_le

/-- A scheme-checked run starts with `http`. -/
theorem http_prefix_of_schemeRun {run : Chars} (h : schemeRunOk run = true) :
    "http".toList <+: run := by
  unfold schemeRunOk at h
  rw [Bool.or_eq_true, Bool.and_eq_true, Bool.and_eq_true] at h
  rcases h with ⟨h, _⟩ | ⟨h, _⟩ <;>
    exact List.IsPrefix.trans (by decide) (List.isPrefixOf_iff_prefix.mp h)

/-- `https://` prepended to anything starts with `http`. -/
theorem http_prefix_https_append (x : Chars) : "http".toList <+: "https://".toList ++ x :=
  List.IsPrefix.trans (by decide) (List.prefix_append _ _)

/-- `normalize_url` only returns nonempty `http`-prefixed URLs. -/
theorem normalize_url_http {u v : Chars} (h : normalize_url u = some v) :
    v ≠ [] ∧ "http".toList.isPrefixOf v = true := by
  unfold normalize_url at h
  split at h
  · cases h
  · dsimp only at h
    split at h
    · rename_i hcond
      cases h
      rw [Bool.or_eq_true] at hcond
      apply url_ok_of_http_prefix
      rcases hcond with hcond | hcond <;>
        exact List.IsPrefix.trans (by decide) (List.isPrefixOf_iff_prefix.mp hcond)
    · split at h
      · cases h
        exact url_ok_of_http_prefix (http_prefix_https_append _)
      · split at h
        · cases h
          exact url_ok_of_http_prefix (http_prefix_https_append _)
        · cases h

/-- `searchHttpUrl` only returns scheme-checked runs. -/
theorem searchHttpUrl_spec :
    ∀ {l u : Chars}, searchHttpUrl l = some u → schemeRunOk u = true := by
  intro l
  induction l with
  | nil => intro u h; cases h
  | cons a t ih =>
    intro u h
    unfold searchHttpUrl at h
    dsimp only at h
    split at h
    · rename_i hok
      cases h
      exact hok
    · exact ih h

/-- Peel one alternative off an `Option.orElse` chain. -/
theorem orElse_some {a : Option ParsedCred} {f : Unit → Option ParsedCred} {r : ParsedCred}
    (h : a.orElse f = some r) : a = some r ∨ (a = none ∧ f () = some r) := by
  cases a with
  | none => exact Or.inr ⟨rfl, h⟩
  | some x => exact Or.inl h

theorem nonspace_pred_excludes (c : Char) (h : (!isPySpace c) = true) : isPySpace c = false := by
  simpa using h

theorem tryPattern1_url {line : Chars} {r : ParsedCred} (h : tryPattern1 line = some r) :
    r.url ≠ [] ∧ "http".toList.isPrefixOf r.url = true := by
  unfold tryPattern1 at h
  dsimp only at h
  split at h
  · cases h
  · rename_i hsch0
    have hsch : schemeRunOk (line.takeWhile fun c => !isPySpace c) = true := by
      simpa using hsch0
    split at h
    · cases h
    · split at h
      · split at h
        · rcases hdp : dotPlusToEnd _ with _ | g3 <;> rw [hdp] at h
          · cases h
          · simp only [Option.map_some'] at h
            injection h with h2
            subst h2
            dsimp only
            rw [pyStrip_run nonspace_pred_excludes]
            exact url_ok_of_http_prefix (http_prefix_of_schemeRun hsch)
        · cases h
      · cases h

theorem tryPattern2_url {line : Chars} {r : ParsedCred} (h : tryPattern2 line = some r) :
    r.url ≠ [] ∧ "http".toList.isPrefixOf r.url = true := by
  unfold tryPattern2 at h
  dsimp only at h
  split at h
  · cases h
  · rename_i hsch0
    have hsch : schemeRunOk (line.takeWhile fun c => !isPySpace c) = true := by
      simpa using hsch0
    split at h
    · cases h
    · split at h
      · cases h
      · split at h
        · split at h
          · rcases hdp : dotPlusToEnd _ with _ | g3 <;> rw [hdp] at h
            · cases h
            · simp only [Option.map_some'] at h
              injection h with h2
              subst h2
              dsimp only
              rw [pyStrip_run nonspace_pred_excludes]
              exact url_ok_of_http_prefix (http_prefix_of_schemeRun hsch)
          · cases h
        · cases h

theorem tryPattern16_url {line : Chars} {r : ParsedCred} (h : tryPattern16 line = some r) :
    r.url ≠ [] ∧ "http".toList.isPrefixOf r.url = true := by
  unfold tryPattern16 at h
  dsimp only at h
  split at h
  · cases h
  · rename_i hsch0
    have hsch : schemeRunOk (line.takeWhile fun c => !isPySpace c) = true := by
      simpa using hsch0
    split at h
    · cases h
    · split at h
      · cases h
      · split at h
        · cases h
        · split at h
          · cases h
          · split at h
            · injection h with h2
              subst h2
              dsimp only
              rw [pyStrip_run nonspace_pred_excludes]
              exact url_ok_of_http_prefix (http_prefix_of_schemeRun hsch)
            · injection h with h2
              subst h2
              dsimp only
              rw [pyStrip_run nonspace_pred_excludes]
              exact url_ok_of_http_prefix (http_prefix_of_schemeRun hsch)
            · cases h

theorem tryPattern13_url {line : Chars} {r : ParsedCred} (h : tryPattern13 line = some r) :
    r.url ≠ [] ∧ "http".toList.isPrefixOf r.url = true := by
  unfold tryPattern13 at h
  split at h
  · split at h
    · rename_i hurl
      injection h with h2
      subst h2
      dsimp only
      exact url_ok_of_http_prefix (http_prefix_of_schemeRun (searchHttpUrl_spec hurl))
    · cases h
  · cases h

theorem tryPattern3_url_aux {line : Chars} {r : ParsedCred} {minLen : Nat}
    (hmin4 : 4 ≤ minLen)
    (hpre : "http".toList <+: line.takeWhile fun c => !isPySpace c)
    (h : ((List.range' minLen
        ((line.takeWhile fun c => !isPySpace c).length + 1 - minLen)).reverse.findSome? fun L =>
          (colonUserColonPassTail (line.drop L)).map fun g =>
            (⟨pyStrip (line.take L), pyStrip g.1, pyStrip g.2, line, 3⟩ : ParsedCred)) =
        some r) :
    r.url ≠ [] ∧ "http".toList.isPrefixOf r.url = true := by
  obtain ⟨L, hL, hf⟩ := List.exists_of_findSome?_eq_some h
  rw [List.mem_reverse, List.mem_range'_1] at hL
  obtain ⟨hL1, hL2⟩ := hL
  have hLrun : L ≤ (line.takeWhile fun c => !isPySpace c).length := by omega
  rcases hct : colonUserColonPassTail (line.drop L) with _ | ⟨u, pw⟩ <;> rw [hct] at hf
  · cases hf
  · simp only [Option.map_some'] at hf
    injection hf with h2
    subst h2
    dsimp only
    obtain ⟨t, ht⟩ := (List.takeWhile_prefix (fun c => !isPySpace c) :
      (line.takeWhile fun c => !isPySpace c) <+: line)
    have htake : line.take L = (line.takeWhile fun c => !isPySpace c).take L := by
      conv_lhs => rw [← ht]
      rw [List.take_append_eq_append_take, Nat.sub_eq_zero_of_le hLrun, List.take_zero,
        List.append_nil]
    have hall : (line.take L).all (fun c => !isPySpace c) = true := by
      rw [htake]
      refine List.all_eq_true.mpr ?_
      intro c hc
      have hmem : c ∈ line.takeWhile (fun c => !isPySpace c) := List.mem_of_mem_take hc
      have h5 := List.mem_takeWhile_imp hmem
      exact h5
    rw [pyStrip_of_all_nonspace hall]
    apply url_ok_of_http_prefix
    rw [htake]
    obtain ⟨s, hs⟩ := hpre
    rw [← hs, List.take_append_eq_append_take]
    have h4 : "http".toList.length ≤ L := by
      have : (4 : Nat) ≤ L := le_trans hmin4 hL1
      simpa using this
    rw [List.take_of_length_le h4]
    exact List.prefix_append _ _

theorem tryPattern3_url {line : Chars} {r : ParsedCred} (h : tryPattern3 line = some r) :
    r.url ≠ [] ∧ "http".toList.isPrefixOf r.url = true := by
  unfold tryPattern3 at h
  dsimp only at h
  by_cases h9 : "https://".toList.isPrefixOf (line.takeWhile fun c => !isPySpace c) = true
  · rw [if_pos h9, if_neg (by norm_num)] at h
    exact tryPattern3_url_aux (by norm_num)
      (List.IsPrefix.trans (by decide) (List.isPrefixOf_iff_prefix.mp h9)) h
  · rw [if_neg h9] at h
    by_cases h8 : "http://".toList.isPrefixOf (line.takeWhile fun c => !isPySpace c) = true
    · rw [if_pos h8, if_neg (by norm_num)] at h
      exact tryPattern3_url_aux (by norm_num)
        (List.IsPrefix.trans (by decide) (List.isPrefixOf_iff_prefix.mp h8)) h
    · rw [if_neg h8, if_pos rfl] at h
      cases h

theorem tryPattern4_url {line : Chars} {r : ParsedCred} (h : tryPattern4 line = some r) :
    r.url ≠ [] ∧ "http".toList.isPrefixOf r.url = true := by
  unfold tryPattern4 at h
  dsimp only at h
  split at h
  · cases h
  · split at h
    · rcases hnu : normalize_url _ with _ | v <;> rw [hnu] at h
      · cases h
      · simp only [Option.map_some'] at h
        injection h with h2
        subst h2
        exact normalize_url_http hnu
    · cases h

theorem tryPattern5_url {line : Chars} {r : ParsedCred} (h : tryPattern5 line = some r) :
    r.url ≠ [] ∧ "http".toList.isPrefixOf r.url = true := by
  unfold tryPattern5 at h
  dsimp only at h
  split at h
  · cases h
  · split at h
    · split at h
      · cases h
      · split at h
        · rcases hdp : dotPlusToEnd _ with _ | g3 <;> rw [hdp] at h
          · cases h
          · simp only [Option.some_bind] at h
            rcases hnu : normalize_url _ with _ | v <;> rw [hnu] at h
            · cases h
            · simp only [Option.map_some'] at h
              injection h with h2
              subst h2
              exact normalize_url_http hnu
        · cases h
    · cases h

theorem tryDelimPattern_url {sep : Char} {pid : Nat} {line : Chars} {r : ParsedCred}
    (h : tryDelimPattern sep pid line = some r) :
    r.url ≠ [] ∧ "http".toList.isPrefixOf r.url = true := by
  unfold tryDelimPattern at h
  dsimp only at h
  split at h
  · split at h
    · rename_i p0 p1 p2 rest0 heq
      split at h
      · rename_i url hurl
        split at h
        · rename_i hguard
          injection h with h2
          subst h2
          dsimp only
          rw [Bool.and_eq_true, Bool.and_eq_true] at hguard
          refine ⟨by simpa using hguard.1.1, ?_⟩
          revert hurl
          split
          · rename_i hpre
            intro hurl
            injection hurl with h3
            subst h3
            exact hpre
          · intro hurl
            exact (normalize_url_http hurl).2
        · cases h
      · cases h
    · cases h
  · cases h

theorem tryPattern10_url {line : Chars} {r : ParsedCred} (h : tryPattern10 line = some r) :
    r.url ≠ [] ∧ "http".toList.isPrefixOf r.url = true := by
  unfold tryPattern10 at h
  dsimp only at h
  split at h
  · cases h
  · split at h
    · split at h
      · cases h
      · split at h
        · split at h
          · split at h
            · rename_i url hurl
              split at h
              · injection h with h2
                subst h2
                exact normalize_url_http hurl
              · cases h
            · cases h
          · cases h
        · cases h
    · cases h

theorem tryPattern11_url {line : Chars} {r : ParsedCred} (h : tryPattern11 line = some r) :
    r.url ≠ [] ∧ "http".toList.isPrefixOf r.url = true := by
  unfold tryPattern11 at h
  split at h
  · dsimp only at h
    split at h
    · cases h
    · split at h
      · split at h
        · split at h
          · split at h
            · split at h
              · rename_i hurl
                split at h
                · rename_i hguard
                  injection h with h2
                  subst h2
                  dsimp only
                  rw [Bool.and_eq_true, Bool.and_eq_true] at hguard
                  refine ⟨by simpa using hguard.1.1, ?_⟩
                  revert hurl
                  split
                  · rename_i hpre
                    intro hurl
                    injection hurl with h3
                    subst h3
                    exact hpre
                  · intro hurl
                    exact (normalize_url_http hurl).2
                · cases h
              · cases h
            · cases h
          · cases h
        · cases h
      · cases h
  · cases h

theorem tryPattern12_url {line : Chars} {r : ParsedCred} (h : tryPattern12 line = some r) :
    r.url ≠ [] ∧ "http".toList.isPrefixOf r.url = true := by
  unfold tryPattern12 at h
  dsimp only at h
  split at h
  · split at h
    · rename_i p0 p1 rest0 heq
      split at h
      · rename_i hpre
        have hpre' : "http".toList <+: pyStrip p0 := List.isPrefixOf_iff_prefix.mp hpre
        split at h
        · split at h
          · split at h
            · injection h with h2
              subst h2
              dsimp only
              exact url_ok_of_http_prefix
                (List.IsPrefix.trans hpre'
                  ((List.prefix_append _ _).trans (List.prefix_append _ _)))
            · cases h
          · cases h
        · split at h
          · split at h
            · injection h with h2
              subst h2
              dsimp only
              exact url_ok_of_http_prefix hpre'
            · cases h
          · cases h
      · cases h
    · cases h
  · cases h

theorem tryPattern14_url {line : Chars} {r : ParsedCred} (h : tryPattern14 line = some r) :
    r.url ≠ [] ∧ "http".toList.isPrefixOf r.url = true := by
  unfold tryPattern14 at h
  dsimp only at h
  split at h
  · cases h
  · split at h
    · cases h
    · split at h
      · split at h
        · rcases hdp : dotPlusToEnd _ with _ | g3 <;> rw [hdp] at h
          · cases h
          · rw [Option.some_bind] at h
            split at h
            · split at h
              · simp only [Option.map_some'] at h
                injection h with h2
                subst h2
                dsimp only
                exact url_ok_of_http_prefix (http_prefix_https_append _)
              · rcases hn : normalize_url (line.takeWhile fun c => !isPySpace c)
                    with _ | u <;> rw [hn] at h
                · cases h
                · simp only [Option.map_some'] at h
                  injection h with h2
                  subst h2
                  dsimp only
                  exact normalize_url_http hn
            · rename_i hcond
              simp only [Option.map_some'] at h
              injection h with h2
              subst h2
              dsimp only
              have hp : "http".toList.isPrefixOf (line.takeWhile fun c => !isPySpace c) = true := by
                simpa using hcond
              exact url_ok_of_http_prefix (List.isPrefixOf_iff_prefix.mp hp)
        · cases h
      · cases h

theorem tryPattern17_url {line : Chars} {r : ParsedCred} (h : tryPattern17 line = some r) :
    r.url ≠ [] ∧ "http".toList.isPrefixOf r.url = true := by
  unfold tryPattern17 at h
  dsimp only at h
  split at h
  · split at h
    · cases h
    · split at h
      · split at h
        · cases h
        · split at h
          · split at h
            · split at h
              · cases h
              · rcases hn : normalize_url _ with _ | u <;> rw [hn] at h
                · cases h
                · simp only [Option.map_some'] at h
                  injection h with h2
                  subst h2
                  dsimp only
                  exact normalize_url_http hn
            · cases h
          · cases h
      · cases h
  · cases h

theorem p18_url_tail {g1 run2 g3 line : Chars} {r : ParsedCred}
    (h : ((if !("http".toList.isPrefixOf g1) then
             if g1.contains '.' then some ("https://".toList ++ g1) else none
           else some g1).map fun url =>
             (⟨url, pyStrip run2, pyStrip g3, line, 18⟩ : ParsedCred)) = some r) :
    r.url ≠ [] ∧ "http".toList.isPrefixOf r.url = true := by
  split at h
  · split at h
    · simp only [Option.map_some'] at h
      injection h with h2
      subst h2
      dsimp only
      exact url_ok_of_http_prefix (http_prefix_https_append _)
    · cases h
  · rename_i hcond
    simp only [Option.map_some'] at h
    injection h with h2
    subst h2
    dsimp only
    have hp : "http".toList.isPrefixOf g1 = true := by simpa using hcond
    exact url_ok_of_http_prefix (List.isPrefixOf_iff_prefix.mp hp)

theorem tryPattern18_url {line : Chars} {r : ParsedCred} (h : tryPattern18 line = some r) :
    r.url ≠ [] ∧ "http".toList.isPrefixOf r.url = true := by
  unfold tryPattern18 at h
  dsimp only at h
  split at h
  · cases h
  · split at h
    · cases h
    · split at h
      · split at h
        · rcases hdp : dotPlusToEnd _ with _ | g3 <;> rw [hdp] at h
          · cases h
          · rw [Option.some_bind] at h
            exact p18_url_tail h
        · cases h
      · cases h

theorem tryPattern19_url {line : Chars} {r : ParsedCred} (h : tryPattern19 line = some r) :
    r.url ≠ [] ∧ "http".toList.isPrefixOf r.url = true := by
  unfold tryPattern19 at h
  dsimp only at h
  split at h
  · cases h
  · split at h
    · cases h
    · split at h
      · cases h
      · split at h
        · cases h
        · split at h
          · rcases hn : normalize_url _ with _ | u <;> rw [hn] at h
            · cases h
            · simp only [Option.map_some'] at h
              injection h with h2
              subst h2
              dsimp only
              exact normalize_url_http hn
          · cases h

theorem tryPattern20_url {line : Chars} {r : ParsedCred} (h : tryPattern20 line = some r) :
    r.url ≠ [] ∧ "http".toList.isPrefixOf r.url = true := by
  unfold tryPattern20 at h
  dsimp only at h
  split at h
  · cases h
  · split at h
    · cases h
    · split at h
      · cases h
      · split at h
        · cases h
        · split at h
          · rcases hn : normalize_url _ with _ | u <;> rw [hn] at h
            · cases h
            · simp only [Option.map_some'] at h
              injection h with h2
              subst h2
              dsimp only
              exact normalize_url_http hn
          · cases h

set_option maxHeartbeats 1000000 in
/-- **C9.**  Whenever `parse_credential_line` returns a record — through any
of the twenty cascade patterns — the record's `url` field is a non-empty
string beginning with `"http"`: every branch either checks that the
candidate already starts with a scheme (`schemeRunOk`/`isPrefixOf`),
prepends `https://` itself, or routes the candidate through
`normalize_url`, which returns only scheme-prefixed URLs. -/
theorem parse_url_invariant {raw : Chars} {r : ParsedCred}
    (h : parse_credential_line raw = some r) :
    r.url ≠ [] ∧ "http".toList.isPrefixOf r.url = true := by
  unfold parse_credential_line at h
  dsimp only at h
  split at h
  · cases h
  · split at h
    · cases h
    · rcases orElse_some h with h | ⟨_, h15⟩
      · rcases orElse_some h with h | ⟨_, hp⟩
        · rcases orElse_some h with h | ⟨_, hp⟩
          · rcases orElse_some h with h | ⟨_, hp⟩
            · rcases orElse_some h with h | ⟨_, hp⟩
              · rcases orElse_some h with h | ⟨_, hp⟩
                · rcases orElse_some h with h | ⟨_, hp⟩
                  · rcases orElse_some h with h | ⟨_, hp⟩
                    · rcases orElse_some h with h | ⟨_, hp⟩
                      · rcases orElse_some h with h | ⟨_, hp⟩
                        · rcases orElse_some h with h | ⟨_, hp⟩
                          · rcases orElse_some h with h | ⟨_, hp⟩
                            · rcases orElse_some h with h | ⟨_, hp⟩
                              · rcases orElse_some h with h | ⟨_, hp⟩
                                · exact tryPattern1_url h
                                · exact tryPattern2_url hp
                              · exact tryPattern3_url hp
                            · exact tryPattern4_url hp
                          · exact tryPattern5_url hp
                        · exact tryDelimPattern_url hp
                      · exact tryDelimPattern_url hp
                    · exact tryDelimPattern_url hp
                  · exact tryDelimPattern_url hp
                · exact tryPattern10_url hp
              · exact tryPattern11_url hp
            · exact tryPattern12_url hp
          · exact tryPattern13_url hp
        · exact tryPattern14_url hp
      · split at h15
        · cases h15
        · rcases orElse_some h15 with h | ⟨_, hp⟩
          · rcases orElse_some h with h | ⟨_, hp⟩
            · rcases orElse_some h with h | ⟨_, hp⟩
              · rcases orElse_some h with h | ⟨_, hp⟩
                · exact tryPattern16_url h
                · exact tryPattern17_url hp
              · exact tryPattern18_url hp
            · exact tryPattern19_url hp
          · exact tryPattern20_url hp

/-- Witness for the URL invariant: `parse_credential_line` on
`"http://y.org bob@y.org:pw"` yields a record (via pattern 1) whose URL is
the non-empty `http`-prefixed `"http://y.org"`. -/
theorem parse_url_invariant_witness :
    "http://y.org".toList ≠ [] ∧
      "http".toList.isPrefixOf "http://y.org".toList = true :=
  @parse_url_invariant "http://y.org bob@y.org:pw".toList
    ⟨"http://y.org".toList, "bob@y.org".toList, "pw".toList,
     "http://y.org bob@y.org:pw".toList, 1⟩ (by decide)

/-! ### C8: CSV round-trip -/

theorem length_joinSemi_ge : ∀ fs : List Chars, fs.length ≤ (joinSemi fs).length + 1
  | [] => by simp [joinSemi]
  | [f] => by simp [joinSemi]
  | f :: g :: fs => by
    have ih := length_joinSemi_ge (g :: fs)
    simp only [joinSemi, List.length_append, List.length_cons] at *
    omega

theorem length_encodeRow_ge (fs : List Chars) : fs.length ≤ (encodeRow fs).length := by
  have h := length_joinSemi_ge (fs.map encodeField)
  rw [List.length_map] at h
  unfold encodeRow
  rw [List.length_append]
  simp only [List.length_cons, List.length_nil]
  omega

theorem length_flatten_rows (rows : List (List Chars)) :
    rows.length ≤ ((rows.map encodeRow).flatten).length := by
  induction rows with
  | nil => simp
  | cons r rs ih =>
    simp only [List.map_cons, List.flatten_cons, List.length_append, List.length_cons]
    have h1 : 1 ≤ (encodeRow r).length := by
      unfold encodeRow
      rw [List.length_append]
      simp
    omega

theorem needsQuote_false_mem {f : Chars} (h : needsQuote f = false) {c : Char} (hc : c ∈ f) :
    c ≠ ';' ∧ c ≠ '"' ∧ c ≠ '\r' ∧ c ≠ '\n' := by
  unfold needsQuote at h
  rw [List.any_eq_false] at h
  have h2 := h c hc
  simp at h2
  tauto

theorem takeWhile_append_head_false {p : Char → Bool} :
    ∀ (f : Chars) {rest : Chars}, (∀ c ∈ f, p c = true) →
      (rest = [] ∨ p (rest.headD ' ') = false) →
      (f ++ rest).takeWhile p = f
  | [], rest, _, hrest => by
    rcases hrest with rfl | hfalse
    · rfl
    · cases rest with
      | nil => rfl
      | cons c r =>
        simp only [List.headD_cons] at hfalse
        simp only [List.nil_append]
        exact List.takeWhile_cons_of_neg (by simp [hfalse])
  | a :: f, rest, hall, hrest => by
    simp only [List.cons_append]
    rw [List.takeWhile_cons_of_pos (hall a (List.mem_cons_self a f))]
    rw [takeWhile_append_head_false f (fun c hc => hall c (List.mem_cons_of_mem _ hc)) hrest]

theorem escapeQuotes_cons_ne {a : Char} (ha : a ≠ '"') (f : Chars) :
    escapeQuotes (a :: f) = a :: escapeQuotes f := by
  conv_lhs => unfold escapeQuotes
  split
  · rename_i heq
    exact absurd heq (by simp)
  · rename_i r heq
    injection heq with h1 h2
    exact absurd h1 ha
  · rename_i c r heq
    injection heq with h1 h2
    subst h1
    subst h2
    rfl

theorem readQuoted_quote_cons {r : Chars} (hr : r = [] ∨ r.headD ' ' ≠ '"') (fuel : Nat) :
    readQuoted (fuel + 1) ('"' :: r) = ([], r) := by
  unfold readQuoted
  rw [if_neg (by simp)]
  rcases hr with rfl | hne
  · rw [if_neg (by decide)]
  · rw [if_neg hne]

theorem readQuoted_cons_ne {c : Char} (hc : c ≠ '"') (fuel : Nat) (r : Chars) :
    readQuoted (fuel + 1) (c :: r) =
      (c :: (readQuoted fuel r).1, (readQuoted fuel r).2) := by
  conv_lhs => unfold readQuoted
  rw [if_pos hc]

theorem readQuoted_spec (rest : Chars) (hrest : rest = [] ∨ rest.headD ' ' ≠ '"') :
    ∀ (f : Chars) (fuel : Nat), (escapeQuotes f).length + 1 ≤ fuel →
      readQuoted fuel (escapeQuotes f ++ '"' :: rest) = (f, rest)
  | [], fuel, hfuel => by
    cases fuel with
    | zero => omega
    | succ k =>
      simp only [escapeQuotes, List.nil_append]
      exact readQuoted_quote_cons hrest k
  | a :: f, fuel, hfuel => by
    by_cases ha : a = '"'
    · subst ha
      have hesc : escapeQuotes ('"' :: f) = '"' :: '"' :: escapeQuotes f := rfl
      rw [hesc] at hfuel ⊢
      simp only [List.length_cons] at hfuel
      cases fuel with
      | zero => omega
      | succ k =>
        simp only [List.cons_append]
        unfold readQuoted
        rw [if_neg (by simp)]
        rw [if_pos (by simp)]
        simp only [List.tail_cons]
        rw [readQuoted_spec rest hrest f k (by omega)]
    · rw [escapeQuotes_cons_ne ha] at hfuel ⊢
      simp only [List.length_cons] at hfuel
      cases fuel with
      | zero => omega
      | succ k =>
        simp only [List.cons_append]
        rw [readQuoted_cons_ne ha, readQuoted_spec rest hrest f k (by omega)]

theorem readField_encode (f : Chars) {rest : Chars}
    (hrest : rest.headD ' ' = ';' ∨ rest.headD ' ' = '\r') :
    readField (encodeField f ++ rest) = (f, rest) := by
  have hrq : rest = [] ∨ rest.headD ' ' ≠ '"' := by
    rcases hrest with h | h <;> exact Or.inr (by rw [h]; decide)
  by_cases hq : needsQuote f = true
  · have hs : encodeField f ++ rest = '"' :: (escapeQuotes f ++ '"' :: rest) := by
      unfold encodeField
      rw [if_pos hq]
      simp [List.append_assoc]
    rw [hs]
    unfold readField
    rw [if_pos (by simp)]
    simp only [List.tail_cons]
    refine readQuoted_spec rest hrq f _ ?_
    simp only [List.length_append, List.length_cons]
    omega
  · rw [Bool.not_eq_true] at hq
    have hs : encodeField f ++ rest = f ++ rest := by
      unfold encodeField
      rw [if_neg (by rw [hq]; simp)]
    rw [hs]
    unfold readField
    rw [if_neg ?hhead]
    case hhead =>
      cases f with
      | nil =>
        simp only [List.nil_append]
        rcases hrest with h | h <;> rw [h] <;> decide
      | cons a f' =>
        simp only [List.cons_append, List.headD_cons]
        exact (needsQuote_false_mem hq (List.mem_cons_self a f')).2.1
    dsimp only
    have htake : (f ++ rest).takeWhile
        (fun c => c ≠ ';' && c ≠ '\r' && c ≠ '\n') = f := by
      refine takeWhile_append_head_false f ?_ ?_
      · intro c hc
        obtain ⟨h1, _, h3, h4⟩ := needsQuote_false_mem hq hc
        simp [h1, h3, h4]
      · refine Or.inr ?_
        rcases hrest with h | h <;> rw [h] <;> decide
    rw [htake, List.drop_left]

theorem joinSemi_cons_cons (f g : Chars) (fs : List Chars) :
    joinSemi (f :: g :: fs) = f ++ ';' :: joinSemi (g :: fs) := rfl

theorem readRow_encode :
    ∀ (fs : List Chars) {more : Chars} (fuel : Nat), fs ≠ [] → fs.length ≤ fuel →
      readRow fuel (encodeRow fs ++ more) = (fs, more)
  | [], _, _, hne, _ => absurd rfl hne
  | [f], more, fuel, _, hfuel => by
    cases fuel with
    | zero => simp at hfuel
    | succ k =>
      have hs : encodeRow [f] ++ more = encodeField f ++ ('\r' :: '\n' :: more) := by
        unfold encodeRow
        simp only [List.map_cons, List.map_nil]
        rw [show joinSemi [encodeField f] = encodeField f from rfl]
        simp [List.append_assoc]
      rw [hs]
      unfold readRow
      rw [readField_encode f (Or.inr (by simp))]
      simp
  | f :: g :: fs, more, fuel, _, hfuel => by
    cases fuel with
    | zero => simp at hfuel
    | succ k =>
      have hs : encodeRow (f :: g :: fs) ++ more =
          encodeField f ++ (';' :: (encodeRow (g :: fs) ++ more)) := by
        unfold encodeRow
        rw [List.map_cons, List.map_cons, joinSemi_cons_cons]
        simp [List.append_assoc]
      rw [hs]
      unfold readRow
      rw [readField_encode f (Or.inl (by simp))]
      simp only [List.headD_cons, List.tail_cons]
      rw [if_pos trivial]
      rw [readRow_encode (g :: fs) k (by simp)
        (by simp only [List.length_cons] at hfuel ⊢; omega)]

theorem readCsv_encode :
    ∀ (rows : List (List Chars)) (fuel : Nat),
      (∀ row ∈ rows, row ≠ []) → rows.length ≤ fuel →
      readCsv fuel ((rows.map encodeRow).flatten) = rows := by
  intro rows
  induction rows with
  | nil =>
    intro fuel _ _
    cases fuel with
    | zero => rfl
    | succ k =>
      unfold readCsv
      rw [if_pos (by simp)]
  | cons r rs ih =>
    intro fuel hne hfuel
    cases fuel with
    | zero => simp at hfuel
    | succ k =>
      simp only [List.map_cons, List.flatten_cons]
      unfold readCsv
      rw [if_neg ?hcons]
      case hcons =>
        intro hemp
        rw [List.isEmpty_eq_true, List.append_eq_nil] at hemp
        have h2 := hemp.1
        unfold encodeRow at h2
        rcases List.append_eq_nil.mp h2 with ⟨_, h3⟩
        simp at h3
      dsimp only
      have hlen : r.length ≤ (encodeRow r ++ (rs.map encodeRow).flatten).length := by
        rw [List.length_append]
        have := length_encodeRow_ge r
        omega
      rw [readRow_encode r _ (hne r (List.mem_cons_self r rs)) hlen]
      dsimp only
      rw [ih k (fun row hrow => hne row (List.mem_cons_of_mem _ hrow))
        (by simp only [List.length_cons] at hfuel; omega)]

theorem readCsvFile_encode (rows : List (List Chars)) (hne : ∀ row ∈ rows, row ≠ []) :
    readCsvFile ((rows.map encodeRow).flatten) = rows := by
  unfold readCsvFile
  exact readCsv_encode rows _ hne (length_flatten_rows rows)

set_option maxHeartbeats 1000000 in
/-- **C8.**  Round-trip of the CSV export: whenever `save_to_csv` produces
file content (i.e. the credential list is non-empty), a standard
semicolon-CSV reader recovers exactly the header row followed by one row
per parsed credential, in order; in particular the
`(url, username, password, pattern_id)` tuples (with `pattern_id` rendered
in decimal, as `csv.writer` writes it) are reproduced exactly and in the
same order as the parsed records. -/
theorem save_to_csv_roundtrip {creds : List ParsedLineCred} {content : Chars}
    (h : save_to_csv creds = some content) :
    readCsvFile content = csvHeader :: creds.map credCsvRow ∧
      ((readCsvFile content).drop 1).map (fun row =>
          (row.getD 0 [], row.getD 1 [], row.getD 2 [], row.getD 4 [])) =
        creds.map fun c => (c.url, c.username, c.password, natToChars c.pattern_id) := by
  unfold save_to_csv at h
  split at h
  · cases h
  · injection h with h2
    subst h2
    have hrows : ∀ row ∈ csvHeader :: creds.map credCsvRow, row ≠ [] := by
      intro row hrow
      rcases List.mem_cons.mp hrow with rfl | hmem
      · decide
      · obtain ⟨c, _, rfl⟩ := List.mem_map.mp hmem
        simp [credCsvRow]
    have hflat : encodeRow csvHeader ++ (creds.map fun c => encodeRow (credCsvRow c)).flatten =
        (((csvHeader :: creds.map credCsvRow).map encodeRow).flatten) := by
      rw [List.map_cons, List.flatten_cons, List.map_map]
      rfl
    rw [hflat, readCsvFile_encode _ hrows]
    refine ⟨rfl, ?_⟩
    simp only [List.drop_succ_cons, List.drop_zero, List.map_map]
    congr 1

/-- Witness for the CSV round-trip on a one-credential list whose fields
exercise quoting (a `';'` in the username, a `'"'` in the password). -/
theorem save_to_csv_roundtrip_witness :
    readCsvFile (encodeRow csvHeader ++
        ([(⟨7, "http://a.b".toList, "u;x".toList, "p\"w".toList, "orig".toList, 3⟩ :
            ParsedLineCred)].map fun c => encodeRow (credCsvRow c)).flatten) =
      csvHeader :: [(⟨7, "http://a.b".toList, "u;x".toList, "p\"w".toList, "orig".toList, 3⟩ :
            ParsedLineCred)].map credCsvRow ∧
      ((readCsvFile (encodeRow csvHeader ++
          ([(⟨7, "http://a.b".toList, "u;x".toList, "p\"w".toList, "orig".toList, 3⟩ :
              ParsedLineCred)].map fun c => encodeRow (credCsvRow c)).flatten)).drop 1).map
          (fun row => (row.getD 0 [], row.getD 1 [], row.getD 2 [], row.getD 4 [])) =
        [("http://a.b".toList, "u;x".toList, "p\"w".toList, natToChars 3)] :=
  save_to_csv_roundtrip
    (show save_to_csv
        [(⟨7, "http://a.b".toList, "u;x".toList, "p\"w".toList, "orig".toList, 3⟩ :
            ParsedLineCred)] =
      some (encodeRow csvHeader ++
        ([(⟨7, "http://a.b".toList, "u;x".toList, "p\"w".toList, "orig".toList, 3⟩ :
            ParsedLineCred)].map fun c => encodeRow (credCsvRow c)).flatten) from rfl)

end CredLake
